import Mathlib

/-!
Verification development for the smallDB bitcask storage engine.

Shallow embedding of the core components of the repository:
the log-record codec (`src/data/log_record.rs`, `src/data/data_file.rs`),
the in-memory BTree index (`src/bitcask/index/btree.rs`),
the engine (`src/bitcask/db.rs`), the write batch (`src/bitcask/batch.rs`)
and the merge precondition (`src/bitcask/merge.rs`).

Bytes are modelled as `Nat` (wellformedness `< 256` stated where it matters),
files as `List Nat` where a read past the written region yields zeroes
(`File::read_at` fills as many bytes as exist; the buffers in
`DataFile::read_log_record` are created with `BytesMut::zeroed`).
Rust panics (`unwrap`, `panic!`) are modelled by a distinct `panic` outcome.
-/

namespace SmallDB

/-- `LogRecordType` from `src/data/log_record.rs`. -/
inductive LogRecordType where
  | Normal
  | Deleted
  | TxnFinished
deriving DecidableEq, Repr

/-- The discriminant used by `self.record_type as u8` when encoding. -/
def LogRecordType.toTag : LogRecordType → Nat
  | .Normal => 0
  | .Deleted => 1
  | .TxnFinished => 2

/-- `LogRecordType::from_u8`; the catch-all arm of the `match` is
`panic!("unknown log record type")`, modelled by `none`. -/
def LogRecordType.fromTag (v : Nat) : Option LogRecordType :=
  if v = 0 then some .Normal
  else if v = 1 then some .Deleted
  else if v = 2 then some .TxnFinished
  else none

/-- `LogRecord` from `src/data/log_record.rs`: key bytes, value bytes, type. -/
structure LogRecord where
  key : List Nat
  value : List Nat
  record_type : LogRecordType
deriving DecidableEq, Repr

/-- `LogRecordPos` from `src/data/log_record.rs`. -/
structure LogRecordPos where
  file_id : Nat
  ofs : Nat
  size : Nat
deriving DecidableEq, Repr

/-- `Errors` from `src/bitcask/errors.rs` (the full enum; note that it has no
`MergeRatioUnreached`, `MergeNoEnoughSpace` or `InvalidMergeRatio` variant). -/
inductive Errors where
  | DataFileNotFound
  | DirPathIsEmpty
  | DataFileSizeTooSmall
  | DataDirectoryCorrupted
  | FailedToReadFromDataFile
  | FailedToWriteToDataFile
  | FailedToSyncToDataFile
  | FailedToOpenDataFile
  | FailedToCreateDatabaseDir
  | FailedToReadDatabaseDir
  | KeyIsEmpty
  | KeyNotFound
  | IndexUpdateFailed
  | InvalidLogRecordCRC
  | ReadDataFileEOF
  | ReadDataFileFailed
  | ExceedMaxBatchNum
  | MergeInProgress
  | UnableToUseWriteBatch
  | DatabaseInUse
deriving DecidableEq, Repr

/-- Outcome of a fallible operation whose Rust original may also panic
(`unwrap` on `None`/`Err`, `panic!`). -/
inductive Res (α : Type) where
  | ok : α → Res α
  | err : Errors → Res α
  | panic : Res α
deriving DecidableEq, Repr

/-- The digit loop of `prost::encode_varint`: emit 7 bits per byte with
continuation bit `0x80` until the remainder is below `0x80`.  The loop
runs at most 10 times because the encoded value is a `u64`; `fuel = 10`
makes that bound explicit (and the recursion structural). -/
def encodeVarintGo : Nat → Nat → List Nat
  | 0, _ => []
  | fuel + 1, n => if n < 128 then [n] else (n % 128 + 128) :: encodeVarintGo fuel (n / 128)

/-- Protobuf-style varint encoding (`prost::encode_length_delimiter` /
`encode_varint`): little-endian base-128, continuation bit `0x80`. -/
def encodeVarint (n : Nat) : List Nat :=
  encodeVarintGo 10 n

/-- `prost::length_delimiter_len`: number of bytes of the varint encoding. -/
def lengthDelimiterLen (n : Nat) : Nat := (encodeVarint n).length

/-- One pass of `prost::decode_varint`: `idx` is the index of the byte being
examined (at most 10 bytes total; the 10th byte must be `≤ 1` so the value
fits in a `u64`).  Returns `(value, bytes consumed)`; `none` models the
decode error (which every caller in the repository `unwrap`s). -/
def decodeVarintAux : List Nat → Nat → Option (Nat × Nat)
  | [], _ => none
  | b :: rest, idx =>
    if idx ≥ 10 then none
    else if b % 256 < 128 then
      if idx = 9 ∧ b % 256 > 1 then none
      else some ((b % 256) * 2 ^ (7 * idx), idx + 1)
    else
      match decodeVarintAux rest (idx + 1) with
      | none => none
      | some (v, c) => some ((b % 256 - 128) * 2 ^ (7 * idx) + v, c)

/-- `prost::decode_length_delimiter` on a buffer: decode a varint from the
front, reporting the value and the number of bytes consumed. -/
def decodeVarint (bs : List Nat) : Option (Nat × Nat) :=
  decodeVarintAux bs 0

/-- The CRC-32 (IEEE, reflected) bit-by-bit round: `crc32fast` computes the
standard CRC-32 with the reversed polynomial `0xEDB88320`. -/
def crcRound (u : Nat) : Nat :=
  if u % 2 = 1 then (u / 2) ^^^ 0xEDB88320 else u / 2

/-- Processing a single input byte value (8 rounds), i.e. the classic
CRC-32 table entry for index `i < 256`. -/
def crcTableEntry (i : Nat) : Nat :=
  crcRound (crcRound (crcRound (crcRound (crcRound (crcRound (crcRound (crcRound i)))))))

/-- CRC-32 state update for one message byte. -/
def crcStep (s b : Nat) : Nat :=
  (s / 256) ^^^ crcTableEntry ((s ^^^ b) % 256)

/-- Fold the CRC-32 state over a message. -/
def crcFold (s : Nat) (m : List Nat) : Nat := m.foldl crcStep s

/-- `crc32fast::Hasher`: initial state `0xFFFFFFFF`, final xor `0xFFFFFFFF`. -/
def crc32 (m : List Nat) : Nat := crcFold 0xFFFFFFFF m ^^^ 0xFFFFFFFF

/-- Big-endian 4-byte encoding used by `BytesMut::put_u32`. -/
def toBE4 (n : Nat) : List Nat :=
  [n / 2 ^ 24 % 256, n / 2 ^ 16 % 256, n / 2 ^ 8 % 256, n % 256]

/-- Big-endian 4-byte read used by `Bytes::get_u32`. -/
def getU32BE (bs : List Nat) : Nat :=
  ((bs.getD 0 0 * 256 + bs.getD 1 0) * 256 + bs.getD 2 0) * 256 + bs.getD 3 0

/-- The header+key+value prefix of `LogRecord::encode_and_get_crc`:
`type(1) | varint(key_len) | varint(value_len) | key | value`. -/
def LogRecord.encodedPrefix (r : LogRecord) : List Nat :=
  r.record_type.toTag :: (encodeVarint r.key.length ++ encodeVarint r.value.length
    ++ r.key ++ r.value)

/-- `LogRecord::get_crc`: the CRC-32 of the encoded prefix. -/
def LogRecord.getCrc (r : LogRecord) : Nat := crc32 r.encodedPrefix

/-- `LogRecord::encode`: the prefix followed by the CRC-32, big-endian. -/
def LogRecord.encode (r : LogRecord) : List Nat :=
  r.encodedPrefix ++ toBE4 r.getCrc

/-- `LogRecord::get_encoded_record_length` (`CRC_LEN = 4`). -/
def LogRecord.encodedLength (r : LogRecord) : Nat :=
  1 + lengthDelimiterLen r.key.length + lengthDelimiterLen r.value.length
    + r.key.length + r.value.length + 4

/-- `max_log_record_header_size()` = `size_of::<u8>() +
length_delimiter_len(u32::MAX as usize) * 2`. -/
def maxLogRecordHeaderSize : Nat := 1 + lengthDelimiterLen 4294967295 * 2

/-- `IOManager::read` into a buffer created by `BytesMut::zeroed(len)`:
the bytes of the file from `ofs`, zero for every position at or past the
end of the file (`read_at` fills only the bytes that exist). -/
def readBytes (file : List Nat) (ofs len : Nat) : List Nat :=
  (List.range len).map (fun i => file.getD (ofs + i) 0)

/-- The header-parsing phase of `DataFile::read_log_record`: read
`max_log_record_header_size` bytes at `ofs`, take the type tag with `get_u8`
and the two length delimiters.  Returns
`(record_type, key_size, value_size)`; `none` models a panic of
`LogRecordType::from_u8` or of `decode_length_delimiter(..).unwrap()`. -/
def parseHeader (file : List Nat) (ofs : Nat) :
    Option (LogRecordType × Nat × Nat) :=
  let headerBuf := readBytes file ofs maxLogRecordHeaderSize
  match headerBuf with
  | [] => none
  | b0 :: rest =>
    match LogRecordType.fromTag (b0 % 256) with
    | none => none
    | some ty =>
      match decodeVarint rest with
      | none => none
      | some (keySize, c1) =>
        match decodeVarint (rest.drop c1) with
        | none => none
        | some (valueSize, _) => some (ty, keySize, valueSize)

/-- `DataFile::read_log_record(ofs)`, `src/data/data_file.rs` lines 98–131.
After the header parse: if both decoded sizes are zero return the
end-of-file sentinel; otherwise read `key_size + value_size + CRC_LEN`
bytes at `ofs + header_size`, rebuild the record, compare the stored CRC
with `LogRecord::get_crc` and return `(record, header_size + key_size +
value_size + 4)`. -/
def readLogRecord (file : List Nat) (ofs : Nat) : Res (LogRecord × Nat) :=
  match parseHeader file ofs with
  | none => .panic
  | some (ty, keySize, valueSize) =>
    if keySize = 0 ∧ valueSize = 0 then .err .ReadDataFileEOF
    else
      let headerSize := 1 + lengthDelimiterLen keySize + lengthDelimiterLen valueSize
      let kvBuf := readBytes file (ofs + headerSize) (keySize + valueSize + 4)
      let record : LogRecord :=
        { key := kvBuf.take keySize
          value := (kvBuf.drop keySize).take valueSize
          record_type := ty }
      if getU32BE (kvBuf.drop (keySize + valueSize)) ≠ record.getCrc then
        .err .InvalidLogRecordCRC
      else
        .ok (record, headerSize + keySize + valueSize + 4)

/-! ## Transaction-tagged keys (`src/bitcask/db.rs`) -/

/-- `encode_log_record_key`: varint sequence number followed by the user key. -/
def encodeLogRecordKey (key : List Nat) (sequenceNumber : Nat) : List Nat :=
  encodeVarint sequenceNumber ++ key

/-- `parse_log_record_key`: decode the sequence-number delimiter from the
front; the remainder of the buffer is the user key.  The source `unwrap`s
the decode, modelled by `none`. -/
def parseLogRecordKey (key : List Nat) : Option (List Nat × Nat) :=
  match decodeVarint key with
  | none => none
  | some (sequenceNumber, c) => some (key.drop c, sequenceNumber)

/-- `NON_TRANSACTION_SEQUENCE` from `src/bitcask/batch.rs`. -/
def nonTransactionSequence : Nat := 0

/-! ## The in-memory BTree index (`src/bitcask/index/btree.rs`)

`BTreeMap<Vec<u8>, LogRecordPos>` is modelled as an association list kept
sorted by key in the byte-lexicographic order `Vec<u8>: Ord` uses, so that
the list coincides with the map's iteration order. -/

/-- Lexicographic comparison of byte strings (`Ord` on `Vec<u8>`). -/
def keyCompare : List Nat → List Nat → Ordering
  | [], [] => .eq
  | [], _ :: _ => .lt
  | _ :: _, [] => .gt
  | a :: as, b :: bs =>
    if a < b then .lt else if b < a then .gt else keyCompare as bs

/-- The index contents: sorted association list from key bytes to position. -/
abbrev Index : Type := List (List Nat × LogRecordPos)

/-- `BTree::put` (`tree.insert`): insert or overwrite, returning the
superseded position if any. -/
def idxPut (m : Index) (key : List Nat) (pos : LogRecordPos) :
    Option LogRecordPos × Index :=
  match m with
  | [] => (none, [(key, pos)])
  | (k, p) :: t =>
    match keyCompare key k with
    | .lt => (none, (key, pos) :: (k, p) :: t)
    | .eq => (some p, (key, pos) :: t)
    | .gt =>
      let (old, t') := idxPut t key pos
      (old, (k, p) :: t')

/-- `BTree::get` (`tree.get(..).copied()`). -/
def idxGet (m : Index) (key : List Nat) : Option LogRecordPos :=
  match m with
  | [] => none
  | (k, p) :: t => if key = k then some p else idxGet t key

/-- `BTree::delete` (`tree.remove`): remove the entry, returning it if any. -/
def idxDelete (m : Index) (key : List Nat) : Option LogRecordPos × Index :=
  match m with
  | [] => (none, [])
  | (k, p) :: t =>
    if key = k then (some p, t)
    else
      let (old, t') := idxDelete t key
      (old, (k, p) :: t')

/-! ## BTree iterator (`src/bitcask/index/btree.rs` lines 52–111) -/

/-- `IteratorOptions` (`src/bitcask/options.rs`); `pfx` models the `prefix`
field (empty means no filter). -/
structure IteratorOptions where
  pfx : List Nat
  reverse : Bool
deriving DecidableEq, Repr

/-- `BTreeIterator`: the private snapshot vector, the cursor, the options. -/
structure BTreeIterator where
  items : List (List Nat × LogRecordPos)
  currIndex : Nat
  options : IteratorOptions
deriving DecidableEq, Repr

/-- `BTree::iterator`: copy every `(key, position)` pair of the map, in
iteration order, into the private vector; reverse it when requested. -/
def btreeIterator (tree : Index) (options : IteratorOptions) : BTreeIterator :=
  { items := if options.reverse then tree.reverse else tree
    currIndex := 0
    options := options }

/-- The `while let` loop body of `BTreeIterator::next`: starting from the
entries not yet consumed, advance past entries that do not start with the
configured `prefix`, returning the emitted entry and the new cursor. -/
def iterLoop (remaining : List (List Nat × LogRecordPos)) (curr : Nat)
    (options : IteratorOptions) : Option ((List Nat × LogRecordPos) × Nat) :=
  match remaining with
  | [] => none
  | item :: rest =>
    if options.pfx = [] ∨ options.pfx.isPrefixOf item.1 then some (item, curr + 1)
    else iterLoop rest (curr + 1) options

/-- `BTreeIterator::next`. -/
def iterNext (it : BTreeIterator) :
    Option (List Nat × LogRecordPos) × BTreeIterator :=
  if it.currIndex ≥ it.items.length then (none, it)
  else
    match iterLoop (it.items.drop it.currIndex) it.currIndex it.options with
    | some (item, c) => (some item, { it with currIndex := c })
    | none => (none, { it with currIndex := it.items.length })

/-- Keys yielded by repeatedly calling `next` until it returns `None`
(`fuel` bounds the number of calls; `items.length + 1` always suffices). -/
def iterDrainKeys (it : BTreeIterator) (fuel : Nat) : List (List Nat) :=
  match fuel with
  | 0 => []
  | fuel + 1 =>
    match iterNext it with
    | (none, _) => []
    | (some item, it') => item.1 :: iterDrainKeys it' fuel

/-! ## Engine state (`src/bitcask/db.rs`) -/

/-- The configuration fields of `Options` the modelled operations read. -/
structure EngOptions where
  dataFileSize : Nat
  syncWrites : Bool
  bytesPerSync : Nat
deriving DecidableEq, Repr

/-- The state of an `Engine`: the active data file (id, on-disk bytes,
`write_ofs`), the closed files, the index, and the atomics.  File contents
are the bytes on disk; fsync is not distinguished from a completed write. -/
structure EngineState where
  activeId : Nat
  activeFile : List Nat
  activeOfs : Nat
  oldFiles : List (Nat × List Nat)
  index : Index
  seqNo : Nat
  bytesWrite : Nat
  reclaimSize : Nat
  opts : EngOptions
deriving DecidableEq, Repr

/-- `HashMap::insert` on the closed-files map. -/
def ofInsert (m : List (Nat × List Nat)) (fid : Nat) (file : List Nat) :
    List (Nat × List Nat) :=
  match m with
  | [] => [(fid, file)]
  | (k, f) :: t => if fid = k then (fid, file) :: t else (k, f) :: ofInsert t fid file

/-- `HashMap::get` on the closed-files map. -/
def ofLookup (m : List (Nat × List Nat)) (fid : Nat) : Option (List Nat) :=
  match m with
  | [] => none
  | (k, f) :: t => if fid = k then some f else ofLookup t fid

/-- `Engine::append_log_record` (`src/bitcask/db.rs` lines 315–365):
encode; if `write_ofs + record_len > data_file_size`, sync the active file,
move it into the closed map under its id and install a fresh segment with
id+1; write at the current offset; update the auto-sync counter; return
`(active file id, offset before the write, encoded length)`. -/
def appendLogRecord (s : EngineState) (r : LogRecord) :
    EngineState × LogRecordPos :=
  let enc := r.encode
  let recordLen := enc.length
  let s1 :=
    if s.activeOfs + recordLen > s.opts.dataFileSize then
      { s with
        oldFiles := ofInsert s.oldFiles s.activeId s.activeFile
        activeId := s.activeId + 1
        activeFile := []
        activeOfs := 0 }
    else s
  let writeOfs := s1.activeOfs
  let s2 := { s1 with
    activeFile := s1.activeFile ++ enc
    activeOfs := s1.activeOfs + recordLen }
  let previous := s2.bytesWrite
  let s3 := { s2 with bytesWrite := previous + recordLen }
  let needSync := s3.opts.syncWrites
    || (decide (s3.opts.bytesPerSync > 0)
        && decide (previous + recordLen ≥ s3.opts.bytesPerSync))
  let s4 := if needSync then { s3 with bytesWrite := 0 } else s3
  (s4, ⟨s4.activeId, writeOfs, recordLen⟩)

/-- `Engine::put` (`src/bitcask/db.rs` lines 224–242). -/
def enginePut (s : EngineState) (key value : List Nat) : Res EngineState :=
  if key = [] then .err .KeyIsEmpty
  else
    let r : LogRecord :=
      { key := encodeLogRecordKey key nonTransactionSequence
        value := value
        record_type := .Normal }
    let (s1, pos) := appendLogRecord s r
    let (old, idx) := idxPut s1.index key pos
    .ok { s1 with
      index := idx
      reclaimSize := s1.reclaimSize + (match old with | some o => o.size | none => 0) }

/-- `Engine::delete` (`src/bitcask/db.rs` lines 245–269). -/
def engineDelete (s : EngineState) (key : List Nat) : Res EngineState :=
  if key = [] then .err .KeyIsEmpty
  else if (idxGet s.index key).isNone then .ok s
  else
    let r : LogRecord :=
      { key := encodeLogRecordKey key nonTransactionSequence
        value := []
        record_type := .Deleted }
    let (s1, pos) := appendLogRecord s r
    let s2 := { s1 with reclaimSize := s1.reclaimSize + pos.size }
    let (old, idx) := idxDelete s2.index key
    .ok { s2 with
      index := idx
      reclaimSize := s2.reclaimSize + (match old with | some o => o.size | none => 0) }

/-- `Engine::get_value_by_position` (`src/bitcask/db.rs` lines 290–312). -/
def getValueByPosition (s : EngineState) (pos : LogRecordPos) : Res (List Nat) :=
  let readRes : Option (Res (LogRecord × Nat)) :=
    if s.activeId = pos.file_id then some (readLogRecord s.activeFile pos.ofs)
    else
      match ofLookup s.oldFiles pos.file_id with
      | none => none
      | some f => some (readLogRecord f pos.ofs)
  match readRes with
  | none => .err .DataFileNotFound
  | some (.err e) => .err e
  | some .panic => .panic
  | some (.ok (record, _)) =>
    if record.record_type = .Deleted then .err .KeyNotFound
    else .ok record.value

/-- `Engine::get` (`src/bitcask/db.rs` lines 276–288). -/
def engineGet (s : EngineState) (key : List Nat) : Res (List Nat) :=
  if key = [] then .err .KeyIsEmpty
  else
    match idxGet s.index key with
    | none => .err .KeyNotFound
    | some pos => getValueByPosition s pos

/-! ## Startup index loading (`Engine::load_index_from_data_files`,
`src/bitcask/db.rs` lines 368–469) -/

/-- `TransactionRecord` (`src/data/log_record.rs`). -/
structure TransactionRecord where
  record : LogRecord
  pos : LogRecordPos
deriving DecidableEq, Repr

/-- The mutable state threaded through the startup scan: the index, the
`reclaim_size` counter, the `transaction_records` buffer map and the
running maximum sequence number. -/
structure LoadState where
  index : Index
  reclaim : Nat
  txnBuf : List (Nat × List TransactionRecord)
  maxSeq : Nat
deriving DecidableEq, Repr

/-- `HashMap::get` on `transaction_records`. -/
def bufLookup (m : List (Nat × List TransactionRecord)) (seq : Nat) :
    Option (List TransactionRecord) :=
  match m with
  | [] => none
  | (s, rs) :: t => if seq = s then some rs else bufLookup t seq

/-- `transaction_records.entry(seq).or_insert(Vec::new()).push(r)`. -/
def bufPush (m : List (Nat × List TransactionRecord)) (seq : Nat)
    (r : TransactionRecord) : List (Nat × List TransactionRecord) :=
  match m with
  | [] => [(seq, [r])]
  | (s, rs) :: t =>
    if seq = s then (s, rs ++ [r]) :: t else (s, rs) :: bufPush t seq r

/-- `transaction_records.remove(&seq)`. -/
def bufRemove (m : List (Nat × List TransactionRecord)) (seq : Nat) :
    List (Nat × List TransactionRecord) :=
  match m with
  | [] => []
  | (s, rs) :: t => if seq = s then t else (s, rs) :: bufRemove t seq

/-- `Engine::update_index` (`src/bitcask/db.rs` lines 522–544): apply one
record to the index, crediting superseded sizes to `reclaim_size`;
`TxnFinished` records fall through the catch-all arm. -/
def updateIndex (index : Index) (reclaim : Nat) (key : List Nat)
    (recordType : LogRecordType) (pos : LogRecordPos) : Index × Nat :=
  match recordType with
  | .Normal =>
    let (old, idx) := idxPut index key pos
    (idx, reclaim + (match old with | some o => o.size | none => 0))
  | .Deleted =>
    let (old, idx) := idxDelete index key
    (idx, reclaim + pos.size + (match old with | some o => o.size | none => 0))
  | .TxnFinished => (index, reclaim)

/-- Apply a drained transaction buffer to the index in read order
(the `for txn_record in records.iter()` loop). -/
def applyTxnRecords (index : Index) (reclaim : Nat)
    (records : List TransactionRecord) : Index × Nat :=
  match records with
  | [] => (index, reclaim)
  | r :: rest =>
    let (idx, rc) := updateIndex index reclaim r.record.key r.record.record_type r.pos
    applyTxnRecords idx rc rest

/-- The per-record dispatch of the startup scan (`src/bitcask/db.rs`
lines 430–459): sequence 0 applies immediately; `TxnFinished` drains the
buffer of its sequence (`unwrap` panics when the buffer is absent);
any other transactional record is appended, key stripped, to its buffer.
Afterwards the running maximum sequence number is updated. -/
def loadDispatch (st : LoadState) (record : LogRecord) (pos : LogRecordPos) :
    Res LoadState :=
  match parseLogRecordKey record.key with
  | none => .panic
  | some (key, sequenceNumber) =>
    let st1res : Res LoadState :=
      if sequenceNumber = nonTransactionSequence then
        let (idx, rc) := updateIndex st.index st.reclaim key record.record_type pos
        .ok { st with index := idx, reclaim := rc }
      else if record.record_type = .TxnFinished then
        match bufLookup st.txnBuf sequenceNumber with
        | none => .panic
        | some records =>
          let (idx, rc) := applyTxnRecords st.index st.reclaim records
          .ok { st with index := idx, reclaim := rc,
                        txnBuf := bufRemove st.txnBuf sequenceNumber }
      else
        .ok { st with txnBuf :=
                bufPush st.txnBuf sequenceNumber ⟨{ record with key := key }, pos⟩ }
    match st1res with
    | .ok st1 =>
      .ok (if sequenceNumber > st1.maxSeq then { st1 with maxSeq := sequenceNumber } else st1)
    | .err e => .err e
    | .panic => .panic

/-- The inner `loop` of the startup scan over one data file, reading
records at increasing offsets until the end-of-file sentinel.  `fuel`
bounds the iteration count (`file.length + 1` always suffices since a
successful read consumes at least 7 bytes).  Returns the state and the
offset reached. -/
def loadFileLoop (fid : Nat) (file : List Nat) :
    Nat → Nat → LoadState → Res (LoadState × Nat)
  | _, 0, _ => .panic
  | ofs, fuel + 1, st =>
    match readLogRecord file ofs with
    | .err .ReadDataFileEOF => .ok (st, ofs)
    | .err e => .err e
    | .panic => .panic
    | .ok (record, size) =>
      match loadDispatch st record ⟨fid, ofs, size⟩ with
      | .ok st1 => loadFileLoop fid file (ofs + size) fuel st1
      | .err e => .err e
      | .panic => .panic

/-- The outer loop of `load_index_from_data_files` over the data files in
ascending id order (no merge-finished file is present in the modelled
directory, so no file is skipped).  Returns the final state and the offset
reached in the last file (which the source installs as the active file's
`write_ofs`). -/
def loadFiles : List (Nat × List Nat) → LoadState → Res (LoadState × Nat)
  | [], st => .ok (st, 0)
  | (fid, file) :: rest, st =>
    match loadFileLoop fid file 0 (file.length + 1) st with
    | .ok (st1, ofs) =>
      match rest with
      | [] => .ok (st1, ofs)
      | _ => loadFiles rest st1
    | .err e => .err e
    | .panic => .panic

/-- Insert a data file into a list sorted by ascending file id
(`file_ids.sort()` in `load_data_files`). -/
def sortedInsertFile (x : Nat × List Nat) :
    List (Nat × List Nat) → List (Nat × List Nat)
  | [] => [x]
  | y :: t => if x.1 ≤ y.1 then x :: y :: t else y :: sortedInsertFile x t

/-- All data files of the directory sorted by ascending id. -/
def sortFiles (l : List (Nat × List Nat)) : List (Nat × List Nat) :=
  match l with
  | [] => []
  | x :: t => sortedInsertFile x (sortFiles t)

/-- A close/reopen cycle for an engine using the in-memory BTree index:
`Engine::open` enumerates the `.data` segments sorted by id, makes the
highest-id one active and the rest closed, and (no hint file being
present) rebuilds the index by scanning every segment; the sequence
counter becomes `max_seen + 1` when positive, else stays at its initial 1;
the scan leaves `write_ofs` at the end of the last segment. -/
def engineReopen (s : EngineState) : Res EngineState :=
  let files := sortFiles (s.oldFiles ++ [(s.activeId, s.activeFile)])
  match files.getLast? with
  | none => .panic
  | some (aid, afile) =>
    match loadFiles files { index := [], reclaim := 0, txnBuf := [], maxSeq := 0 } with
    | .ok (st, lastOfs) =>
      .ok { activeId := aid
            activeFile := afile
            activeOfs := lastOfs
            oldFiles := files.dropLast
            index := st.index
            seqNo := if st.maxSeq > 0 then st.maxSeq + 1 else 1
            bytesWrite := 0
            reclaimSize := st.reclaim
            opts := s.opts }
    | .err e => .err e
    | .panic => .panic

/-! ## Write batch (`src/bitcask/batch.rs`) -/

/-- `TXN_FIN_KEY = "txn-fin"` as bytes. -/
def txnFinKey : List Nat := [116, 120, 110, 45, 102, 105, 110]

/-- The `pending_writes` map, `HashMap<Vec<u8>, LogRecord>`. -/
abbrev Pending : Type := List (List Nat × LogRecord)

/-- `HashMap::insert` on `pending_writes`. -/
def pendInsert (p : Pending) (key : List Nat) (r : LogRecord) : Pending :=
  match p with
  | [] => [(key, r)]
  | (k, r') :: t => if key = k then (key, r) :: t else (k, r') :: pendInsert t key r

/-- `HashMap::contains_key` on `pending_writes`. -/
def pendContains (p : Pending) (key : List Nat) : Bool :=
  match p with
  | [] => false
  | (k, _) :: t => key = k || pendContains t key

/-- `HashMap::remove` on `pending_writes`. -/
def pendRemove (p : Pending) (key : List Nat) : Pending :=
  match p with
  | [] => []
  | (k, r) :: t => if key = k then t else (k, r) :: pendRemove t key

/-- `HashMap::get` on `pending_writes` / on the commit `position` map. -/
def pendLookup (p : Pending) (key : List Nat) : Option LogRecord :=
  match p with
  | [] => none
  | (k, r) :: t => if key = k then some r else pendLookup t key

/-- `WriteBatch::put` (`src/bitcask/batch.rs` lines 68–83): reject empty
keys, buffer a Normal record under the user key. -/
def batchPut (p : Pending) (key value : List Nat) : Res Pending :=
  if key = [] then .err .KeyIsEmpty
  else .ok (pendInsert p key { key := key, value := value, record_type := .Normal })

/-- `WriteBatch::delete` (`src/bitcask/batch.rs` lines 86–108): reject
empty keys; when the key has no index entry, remove any pending entry for
it and succeed; otherwise buffer a Deleted record. -/
def batchDelete (engineIndex : Index) (p : Pending) (key : List Nat) :
    Res Pending :=
  if key = [] then .err .KeyIsEmpty
  else
    match idxGet engineIndex key with
    | none => if pendContains p key then .ok (pendRemove p key) else .ok p
    | some _ =>
      .ok (pendInsert p key { key := key, value := [], record_type := .Deleted })

/-- The position map built during commit, `HashMap<Vec<u8>, LogRecordPos>`. -/
def posInsert (m : List (List Nat × LogRecordPos)) (key : List Nat)
    (pos : LogRecordPos) : List (List Nat × LogRecordPos) :=
  match m with
  | [] => [(key, pos)]
  | (k, p) :: t => if key = k then (key, pos) :: t else (k, p) :: posInsert t key pos

/-- Lookup in the commit position map. -/
def posLookup (m : List (List Nat × LogRecordPos)) (key : List Nat) :
    Option LogRecordPos :=
  match m with
  | [] => none
  | (k, p) :: t => if key = k then some p else posLookup t key

/-- The first loop of `WriteBatch::commit`: append every buffered record
with its key re-encoded under the allocated sequence number, collecting
`(user key → position)`. -/
def commitAppendLoop (items : List (List Nat × LogRecord)) (seq : Nat)
    (s : EngineState) (positions : List (List Nat × LogRecordPos)) :
    EngineState × List (List Nat × LogRecordPos) :=
  match items with
  | [] => (s, positions)
  | (_, item) :: rest =>
    let (s1, pos) := appendLogRecord s
      { key := encodeLogRecordKey item.key seq
        value := item.value
        record_type := item.record_type }
    commitAppendLoop rest seq s1 (posInsert positions item.key pos)

/-- The second loop of `WriteBatch::commit`: after the terminator is on
disk, update the index — Normal records `put` the position recorded in the
first loop (`unwrap` panics when absent), Deleted records `delete`. -/
def commitIndexLoop (items : List (List Nat × LogRecord))
    (positions : List (List Nat × LogRecordPos)) (index : Index) : Res Index :=
  match items with
  | [] => .ok index
  | (_, item) :: rest =>
    match item.record_type with
    | .Normal =>
      match posLookup positions item.key with
      | none => .panic
      | some pos => commitIndexLoop rest positions (idxPut index item.key pos).2
    | .Deleted => commitIndexLoop rest positions (idxDelete index item.key).2
    | .TxnFinished => commitIndexLoop rest positions index

/-- `WriteBatch::commit` (`src/bitcask/batch.rs` lines 111–161): empty
batch succeeds; oversized batch fails with `ExceedMaxBatchNum`; otherwise
allocate `seq = sequence_number.fetch_add(1)`, append every buffered
record tagged with `seq`, append the `TxnFinished` terminator, optionally
sync, then update the index.  The pending map is returned untouched —
the source never clears it. -/
def writeBatchCommit (s : EngineState) (p : Pending) (maxBatchNum : Nat) :
    Res (EngineState × Pending) :=
  if p.length = 0 then .ok (s, p)
  else if p.length > maxBatchNum then .err .ExceedMaxBatchNum
  else
    let seq := s.seqNo
    let s0 := { s with seqNo := s.seqNo + 1 }
    let (s1, positions) := commitAppendLoop p seq s0 []
    let (s2, _) := appendLogRecord s1
      { key := encodeLogRecordKey txnFinKey seq
        value := []
        record_type := .TxnFinished }
    match commitIndexLoop p positions s2.index with
    | .ok idx => .ok ({ s2 with index := idx }, p)
    | .err e => .err e
    | .panic => .panic

/-! ## Merge precondition (`src/bitcask/merge.rs` lines 30–101) -/

/-- The precondition phase of `Engine::merge`: the only check the source
performs before compacting is `merge_lock.try_lock()`, failing with
`MergeInProgress` when the lock is held.  The body of `merge()` never
reads `reclaim_size`, the total on-disk size or
`options.data_file_merge_ratio` (passed here as a fraction
`mergeRatioNum / mergeRatioDen` to avoid floating point), and the
`Errors` enum has no `MergeRatioUnreached` variant. -/
def mergeGate (mergeLockHeld : Bool) (reclaimSize totalDiskSize : Nat)
    (mergeRatioNum mergeRatioDen : Nat) : Option Errors :=
  if mergeLockHeld then some .MergeInProgress else none

/-! ## Operation traces -/

/-- The engine produced by `Engine::open` on an empty directory: a fresh
active segment with `INITIAL_FILE_ID = 1`, empty index, sequence counter 1. -/
def initialEngine (opts : EngOptions) : EngineState :=
  { activeId := 1
    activeFile := []
    activeOfs := 0
    oldFiles := []
    index := []
    seqNo := 1
    bytesWrite := 0
    reclaimSize := 0
    opts := opts }

/-- The non-batch API calls a caller can interleave. -/
inductive EngineOp where
  | put (key value : List Nat)
  | del (key : List Nat)
  | sync
  | reopen
deriving DecidableEq, Repr

/-- One API call.  `Engine::sync` fsyncs the active file and changes none
of the modelled state (file contents are the bytes written). -/
def runOp (s : EngineState) : EngineOp → Res EngineState
  | .put key value => enginePut s key value
  | .del key => engineDelete s key
  | .sync => .ok s
  | .reopen => engineReopen s

/-- Run a sequence of API calls, stopping at the first failure. -/
def runOps (s : EngineState) : List EngineOp → Res EngineState
  | [] => .ok s
  | op :: rest =>
    match runOp s op with
    | .ok s1 => runOps s1 rest
    | .err e => .err e
    | .panic => .panic

/-- An op `touches` a key when it is a put or delete on that key. -/
def EngineOp.touches (key : List Nat) : EngineOp → Prop
  | .put k _ => k = key
  | .del k => k = key
  | .sync => False
  | .reopen => False

instance (key : List Nat) (op : EngineOp) : Decidable (op.touches key) := by
  cases op <;> simp [EngineOp.touches] <;> infer_instance

/-- Index mutations that can run while a `BTreeIterator` is alive. -/
inductive IndexOp where
  | iput (key : List Nat) (pos : LogRecordPos)
  | idel (key : List Nat)
deriving DecidableEq, Repr

/-- An index holding a live iterator: `BTree::iterator` hands out a
`BTreeIterator` owning its own `items` vector, while `BTree::put` and
`BTree::delete` mutate only the tree behind the `RwLock`. -/
structure IndexWorld where
  tree : Index
  iter : BTreeIterator
deriving DecidableEq, Repr

/-- Apply one index mutation to the world. -/
def applyIndexOp (w : IndexWorld) : IndexOp → IndexWorld
  | .iput key pos => { w with tree := (idxPut w.tree key pos).2 }
  | .idel key => { w with tree := (idxDelete w.tree key).2 }

/-- Apply a sequence of index mutations. -/
def applyIndexOps (w : IndexWorld) : List IndexOp → IndexWorld
  | [] => w
  | op :: rest => applyIndexOps (applyIndexOp w op) rest

/-! ## Derived forms used by the statements -/

/-- The startup scan dispatch folded over a list of already-read records
with their positions (the body of the scan loop applied record by record). -/
def loadSeq : List (LogRecord × LogRecordPos) → LoadState → Res LoadState
  | [], st => .ok st
  | (r, pos) :: rest, st =>
    match loadDispatch st r pos with
    | .ok st1 => loadSeq rest st1
    | .err e => .err e
    | .panic => .panic

/-- The bytes of a data file holding exactly the given records. -/
def recsBytes (recs : List LogRecord) : List Nat :=
  (recs.map LogRecord.encode).flatten

/-- The positions the records of one file occupy: consecutive, starting
at `ofs`, each of its encoded length. -/
def recPoss (fid ofs : Nat) : List LogRecord → List (LogRecord × LogRecordPos)
  | [] => []
  | r :: rest => (r, ⟨fid, ofs, r.encode.length⟩) :: recPoss fid (ofs + r.encode.length) rest

/-- The records of a list of files, in file order, with their positions. -/
def allRecPoss (files : List (Nat × List LogRecord)) :
    List (LogRecord × LogRecordPos) :=
  (files.map (fun f => recPoss f.1 0 f.2)).flatten

/-- Applying one non-transactional record to `(index, reclaim_size)`:
parse the stored key and run `Engine::update_index`. -/
def dispatch0 (acc : Index × Nat) (rp : LogRecord × LogRecordPos) : Index × Nat :=
  match parseLogRecordKey rp.1.key with
  | some (key, _) => updateIndex acc.1 acc.2 key rp.1.record_type rp.2
  | none => acc

/-- Replay a list of non-transactional records over `(index, reclaim_size)`. -/
def replay0 (rs : List (LogRecord × LogRecordPos)) (acc : Index × Nat) : Index × Nat :=
  rs.foldl dispatch0 acc

/-- One `(key, record_type, position)` index update. -/
def applySeqUpdates (upds : List (List Nat × LogRecordType × LogRecordPos))
    (acc : Index × Nat) : Index × Nat :=
  upds.foldl (fun a u => updateIndex a.1 a.2 u.1 u.2.1 u.2.2) acc

/-- Modelled from the spec recovery rule (§4.6): the index updates a scan
of `rs` must apply — records with sequence 0 immediately; records with a
non-zero sequence only when, and in the order in which, they sit in their
sequence's buffer as its `TxnFinished` terminator is met; buffered records
of a sequence whose terminator never arrives are dropped.  This is the
specification-side projection the startup scan is compared against. -/
def specCommittedGo (buf : List (Nat × List TransactionRecord)) :
    List (LogRecord × LogRecordPos) → List (List Nat × LogRecordType × LogRecordPos)
  | [] => []
  | (r, pos) :: rest =>
    match parseLogRecordKey r.key with
    | none => specCommittedGo buf rest
    | some (key, seq) =>
      if seq = nonTransactionSequence then
        (key, r.record_type, pos) :: specCommittedGo buf rest
      else if r.record_type = .TxnFinished then
        ((bufLookup buf seq).getD []).map
            (fun tr => (tr.record.key, tr.record.record_type, tr.pos))
          ++ specCommittedGo (bufRemove buf seq) rest
      else specCommittedGo (bufPush buf seq ⟨{ r with key := key }, pos⟩) rest

/-- The committed projection of a record stream, starting from no buffers. -/
def specCommittedUpdates (rs : List (LogRecord × LogRecordPos)) :
    List (List Nat × LogRecordType × LogRecordPos) :=
  specCommittedGo [] rs

/-- A `TxnFinished` record is an orphan when its sequence has no buffered
records at that point — `commit` never writes such a stream, and the scan
`unwrap`s on it.  This predicate rules orphans out. -/
def noOrphanFins (buf : List (Nat × List TransactionRecord)) :
    List (LogRecord × LogRecordPos) → Prop
  | [] => True
  | (r, pos) :: rest =>
    match parseLogRecordKey r.key with
    | none => False
    | some (key, seq) =>
      if seq = nonTransactionSequence then noOrphanFins buf rest
      else if r.record_type = .TxnFinished then
        (bufLookup buf seq).isSome ∧ noOrphanFins (bufRemove buf seq) rest
      else noOrphanFins (bufPush buf seq ⟨{ r with key := key }, pos⟩) rest

/-- The record `commit` writes for one buffered item under sequence `seq`. -/
def commitRecord (seq : Nat) (item : LogRecord) : LogRecord :=
  { key := encodeLogRecordKey item.key seq
    value := item.value
    record_type := item.record_type }

/-- The terminator record of a commit under sequence `seq`. -/
def finRecord (seq : Nat) : LogRecord :=
  { key := encodeLogRecordKey txnFinKey seq
    value := []
    record_type := .TxnFinished }

/-- The bytes the first commit loop appends for the buffered items. -/
def batchItemsEncoding (items : List (List Nat × LogRecord)) (seq : Nat) : List Nat :=
  (items.map fun kv => (commitRecord seq kv.2).encode).flatten

/-- The bytes one `commit` of pending set `p` under sequence `seq` appends:
every buffered record re-keyed under `seq`, then the terminator. -/
def batchEncoding (p : Pending) (seq : Nat) : List Nat :=
  batchItemsEncoding p seq ++ (finRecord seq).encode

/-- `header_size` as recomputed by `read_log_record`:
`RECORD_TYPE_LEN + length_delimiter_len(key_size) + length_delimiter_len(value_size)`. -/
def recHeaderSize (r : LogRecord) : Nat :=
  1 + lengthDelimiterLen r.key.length + lengthDelimiterLen r.value.length

/-- Wellformedness of a record: non-empty key and `u32`-sized lengths
(`key_size` and `value_size` are decoded into at most five varint bytes
each, which is what the 11-byte header read accommodates). -/
def wfRecord (r : LogRecord) : Prop :=
  r.key ≠ [] ∧ r.key.length < 2 ^ 32 ∧ r.value.length < 2 ^ 32

/-- A record as written by the non-batch write path: its stored key is a
user key tagged with sequence 0, and it is a put or a tombstone. -/
def storedWF (r : LogRecord) : Prop :=
  ∃ k, r.key = encodeLogRecordKey k nonTransactionSequence ∧ k ≠ [] ∧
    r.key.length < 2 ^ 32 ∧ r.value.length < 2 ^ 32 ∧
    (r.record_type = .Normal ∨ r.record_type = .Deleted)

/-- Resolve a file id the way `get_value_by_position` does: the active
file when the id matches, otherwise the closed-files map. -/
def fileAt (s : EngineState) (fid : Nat) : Option (List Nat) :=
  if s.activeId = fid then some s.activeFile else ofLookup s.oldFiles fid

/-- `pos` points at a complete encoding of `r` inside an existing file. -/
def posHolds (s : EngineState) (pos : LogRecordPos) (r : LogRecord) : Prop :=
  ∃ pre suf, fileAt s pos.file_id = some (pre ++ r.encode ++ suf) ∧
    pre.length = pos.ofs

/-- The engine invariant tying the disk to the index: the closed files and
the active file hold exactly the encodings of wellformed sequence-0
records, `write_ofs` is the active file's length, file ids are strictly
increasing with the active one highest, and the index is the replay of
all records in file order. -/
def EngineInv (s : EngineState) : Prop :=
  ∃ (olds : List (Nat × List LogRecord)) (activeRecs : List LogRecord),
    s.oldFiles = olds.map (fun f => (f.1, recsBytes f.2)) ∧
    s.activeFile = recsBytes activeRecs ∧
    s.activeOfs = s.activeFile.length ∧
    List.Pairwise (· < ·) (olds.map Prod.fst ++ [s.activeId]) ∧
    (∀ f ∈ olds, ∀ r ∈ f.2, storedWF r) ∧
    (∀ r ∈ activeRecs, storedWF r) ∧
    s.index = (replay0 (allRecPoss (olds ++ [(s.activeId, activeRecs)])) ([], 0)).1

/-- The index resolves `k` to a position holding a Normal record whose
stored key is `k` tagged with sequence 0 and whose value is `v`. -/
def keyReads (s : EngineState) (k v : List Nat) : Prop :=
  ∃ pos, idxGet s.index k = some pos ∧
    posHolds s pos ⟨encodeLogRecordKey k nonTransactionSequence, v, .Normal⟩

/-- Wellformedness of the arguments of an API call (keys tagged with the
sequence-0 byte and values must still be `u32`-sized). -/
def EngineOp.wf : EngineOp → Prop
  | .put key value => key.length + 1 < 2 ^ 32 ∧ value.length < 2 ^ 32
  | .del key => key.length + 1 < 2 ^ 32
  | .sync => True
  | .reopen => True

/-! ### Lemmas: the varint codec -/

theorem encodeVarintGo_length_le (fuel : Nat) :
    ∀ n k, 0 < k → k ≤ fuel → n < 2 ^ (7 * k) →
      (encodeVarintGo fuel n).length ≤ k := by
  induction fuel with
  | zero => intro n k hk hkf _; omega
  | succ fuel ih =>
    intro n k hk hkf hn
    rw [encodeVarintGo]
    by_cases hsmall : n < 128
    · simp only [hsmall, if_true, List.length_singleton]; omega
    · simp only [hsmall, if_false, List.length_cons]
      have hk2 : 2 ≤ k := by
        by_contra hlt
        have hk1 : k = 1 := by omega
        subst hk1
        apply hsmall
        simpa using hn
      have : (encodeVarintGo fuel (n / 128)).length ≤ k - 1 := by
        apply ih (n / 128) (k - 1) (by omega) (by omega)
        have h7 : 7 * k = 7 * (k - 1) + 7 := by omega
        rw [h7, pow_add] at hn
        rw [Nat.div_lt_iff_lt_mul (by norm_num : (0:Nat) < 128)]
        calc n < 2 ^ (7 * (k - 1)) * 2 ^ 7 := hn
        _ = 2 ^ (7 * (k - 1)) * 128 := by norm_num
      omega

theorem encodeVarint_length_le (n k : Nat) (hk : 0 < k) (hkf : k ≤ 10)
    (hn : n < 2 ^ (7 * k)) : (encodeVarint n).length ≤ k :=
  encodeVarintGo_length_le 10 n k hk hkf hn

theorem encodeVarint_length_le_five (n : Nat) (hn : n < 2 ^ 32) :
    (encodeVarint n).length ≤ 5 :=
  encodeVarint_length_le n 5 (by norm_num) (by norm_num)
    (lt_of_lt_of_le hn (by norm_num))

theorem encodeVarintGo_length_pos (fuel n : Nat) (hf : 0 < fuel) :
    0 < (encodeVarintGo fuel n).length := by
  cases fuel with
  | zero => omega
  | succ fuel => rw [encodeVarintGo]; split <;> simp

theorem encodeVarint_length_pos (n : Nat) : 0 < (encodeVarint n).length :=
  encodeVarintGo_length_pos 10 n (by norm_num)

theorem decodeVarintAux_encodeGo (fuel : Nat) :
    ∀ n idx (t : List Nat), 0 < fuel → n < 2 ^ (7 * fuel) →
      idx + (encodeVarintGo fuel n).length ≤ 9 →
      decodeVarintAux (encodeVarintGo fuel n ++ t) idx
        = some (n * 2 ^ (7 * idx), idx + (encodeVarintGo fuel n).length) := by
  induction fuel with
  | zero => intro n idx t hf _ _; omega
  | succ fuel ih =>
    intro n idx t _ hn hidx
    by_cases hsmall : n < 128
    · rw [encodeVarintGo] at hidx ⊢
      simp only [hsmall, if_true] at hidx ⊢
      rw [List.cons_append, decodeVarintAux]
      have hn256 : n % 256 = n := Nat.mod_eq_of_lt (by omega)
      simp only [hn256, List.length_singleton] at hidx ⊢
      rw [if_neg (by omega), if_pos (by omega), if_neg (by omega)]
    · rw [encodeVarintGo] at hidx ⊢
      simp only [hsmall, if_false, List.length_cons] at hidx ⊢
      rw [List.cons_append, decodeVarintAux]
      have hb : (n % 128 + 128) % 256 = n % 128 + 128 :=
        Nat.mod_eq_of_lt (by omega)
      simp only [hb]
      rw [if_neg (by omega), if_neg (by omega)]
      have hdiv : n / 128 < 2 ^ (7 * fuel) := by
        rw [Nat.div_lt_iff_lt_mul (by norm_num : (0:Nat) < 128)]
        calc n < 2 ^ (7 * (fuel + 1)) := hn
        _ = 2 ^ (7 * fuel) * 128 := by rw [Nat.mul_succ, pow_add]; norm_num
      have hf : 0 < fuel := by
        by_contra hf0
        have : fuel = 0 := by omega
        subst this
        simp at hdiv
        omega
      rw [ih (n / 128) (idx + 1) t hf hdiv (by omega)]
      dsimp only
      have hval : n % 128 + 128 - 128 = n % 128 := by omega
      rw [hval]
      have hkey : n % 128 * 2 ^ (7 * idx) + n / 128 * 2 ^ (7 * (idx + 1))
          = n * 2 ^ (7 * idx) := by
        have h1 : 2 ^ (7 * (idx + 1)) = 2 ^ (7 * idx) * 128 := by
          rw [Nat.mul_succ, pow_add]; norm_num
        calc n % 128 * 2 ^ (7 * idx) + n / 128 * 2 ^ (7 * (idx + 1))
            = (n % 128 + 128 * (n / 128)) * 2 ^ (7 * idx) := by rw [h1]; ring
        _ = n * 2 ^ (7 * idx) := by rw [Nat.mod_add_div]
      rw [hkey]
      have hc : idx + 1 + (encodeVarintGo fuel (n / 128)).length
          = idx + ((encodeVarintGo fuel (n / 128)).length + 1) := by omega
      rw [hc]

theorem decodeVarint_encode (n : Nat) (t : List Nat) (hn : n < 2 ^ 32) :
    decodeVarint (encodeVarint n ++ t) = some (n, (encodeVarint n).length) := by
  have hlen := encodeVarint_length_le_five n hn
  have := decodeVarintAux_encodeGo 10 n 0 t (by norm_num)
    (lt_of_lt_of_le hn (by norm_num)) (by unfold encodeVarint at hlen; omega)
  simpa [decodeVarint, encodeVarint] using this

theorem parseLogRecordKey_encode (k : List Nat) (seq : Nat) (hs : seq < 2 ^ 32) :
    parseLogRecordKey (encodeLogRecordKey k seq) = some (k, seq) := by
  unfold parseLogRecordKey encodeLogRecordKey
  rw [decodeVarint_encode seq k hs]
  simp [List.drop_left]

/-! ### Lemmas: zero-extended reads -/

theorem readBytes_length (f : List Nat) (ofs n : Nat) :
    (readBytes f ofs n).length = n := by simp [readBytes]

theorem readBytes_cons (f : List Nat) (ofs n : Nat) :
    readBytes f ofs (n + 1) = f.getD ofs 0 :: readBytes f (ofs + 1) n := by
  apply List.ext_getElem
  · simp [readBytes]
  · intro i h1 h2
    cases i with
    | zero => simp [readBytes]
    | succ j =>
      simp only [readBytes, List.getElem_map, List.getElem_range, List.getElem_cons_succ]
      have h3 : ofs + (j + 1) = ofs + 1 + j := by omega
      rw [h3]

theorem readBytes_add (f : List Nat) (ofs m k : Nat) :
    readBytes f ofs (m + k) = readBytes f ofs m ++ readBytes f (ofs + m) k := by
  apply List.ext_getElem
  · simp [readBytes]
  · intro i h1 h2
    simp only [readBytes, List.getElem_map, List.getElem_range]
    by_cases hi : i < m
    · rw [List.getElem_append_left (by simpa [readBytes])]
      simp [readBytes]
    · rw [List.getElem_append_right (by simpa [readBytes] using hi)]
      simp only [readBytes, List.getElem_map, List.getElem_range, List.length_map,
        List.length_range]
      congr 1
      omega

theorem readBytes_exact (pre xs suf : List Nat) :
    readBytes (pre ++ xs ++ suf) pre.length xs.length = xs := by
  apply List.ext_getElem
  · simp [readBytes]
  · intro i h1 h2
    simp only [readBytes, List.getElem_map, List.getElem_range]
    rw [List.append_assoc, List.getD_eq_getElem?_getD, List.getElem?_append_right (by omega)]
    have h3 : pre.length + i - pre.length = i := by omega
    rw [h3, List.getElem?_append_left (by simpa [readBytes] using h2)]
    simp [List.getElem?_eq_getElem (show i < xs.length by simpa [readBytes] using h2)]

theorem readBytes_past_end (f : List Nat) (ofs n : Nat) (h : f.length ≤ ofs) :
    readBytes f ofs n = List.replicate n 0 := by
  apply List.ext_getElem
  · simp [readBytes]
  · intro i h1 h2
    simp only [readBytes, List.getElem_map, List.getElem_range, List.getElem_replicate]
    apply List.getD_eq_default
    omega

/-! ### Lemmas: CRC-32 bounds and big-endian u32 round-trip -/

theorem crcRound_lt (u : Nat) (h : u < 2 ^ 32) : crcRound u < 2 ^ 32 := by
  unfold crcRound
  split
  · exact Nat.xor_lt_two_pow (by omega) (by norm_num)
  · omega

theorem crcTableEntry_lt (i : Nat) (h : i < 2 ^ 32) : crcTableEntry i < 2 ^ 32 := by
  unfold crcTableEntry
  exact crcRound_lt _ (crcRound_lt _ (crcRound_lt _ (crcRound_lt _ (crcRound_lt _
    (crcRound_lt _ (crcRound_lt _ (crcRound_lt _ h)))))))

theorem crcStep_lt (s b : Nat) (hs : s < 2 ^ 32) : crcStep s b < 2 ^ 32 := by
  unfold crcStep
  exact Nat.xor_lt_two_pow (by omega)
    (crcTableEntry_lt _ (lt_of_lt_of_le (Nat.mod_lt _ (by norm_num)) (by norm_num)))

theorem crcFold_lt (m : List Nat) : ∀ s, s < 2 ^ 32 → crcFold s m < 2 ^ 32 := by
  induction m with
  | nil => intro s hs; simpa [crcFold] using hs
  | cons b m ih =>
    intro s hs
    have h1 : crcFold s (b :: m) = crcFold (crcStep s b) m := by
      simp [crcFold, List.foldl_cons]
    rw [h1]
    exact ih _ (crcStep_lt s b hs)

theorem crc32_lt (m : List Nat) : crc32 m < 2 ^ 32 := by
  unfold crc32
  exact Nat.xor_lt_two_pow (crcFold_lt m _ (by norm_num)) (by norm_num)

theorem toBE4_length (n : Nat) : (toBE4 n).length = 4 := by simp [toBE4]

theorem getU32BE_toBE4 (n : Nat) (h : n < 2 ^ 32) : getU32BE (toBE4 n) = n := by
  unfold getU32BE toBE4
  simp only [List.getD_cons_zero, List.getD_cons_succ]
  omega

/-! ### Lemmas: decoding an encoded record -/

theorem encode_unfold (r : LogRecord) :
    r.encode = r.record_type.toTag :: (encodeVarint r.key.length
      ++ (encodeVarint r.value.length ++ (r.key ++ (r.value ++ toBE4 r.getCrc)))) := by
  simp [LogRecord.encode, LogRecord.encodedPrefix, List.append_assoc]

theorem encode_length (r : LogRecord) : r.encode.length = r.encodedLength := by
  rw [encode_unfold]
  simp [LogRecord.encodedLength, lengthDelimiterLen, toBE4]
  omega

theorem getD_at_append (pre : List Nat) (x : Nat) (l : List Nat) :
    (pre ++ x :: l).getD pre.length 0 = x := by
  rw [List.getD_eq_getElem?_getD, List.getElem?_append_right (le_refl _)]
  simp

theorem fromTag_toTag (ty : LogRecordType) :
    LogRecordType.fromTag (ty.toTag % 256) = some ty := by
  cases ty <;> rfl

theorem maxHeader_eq : maxLogRecordHeaderSize = 11 := by decide


theorem parseHeader_at (pre : List Nat) (ty : LogRecordType) (ks vs : Nat)
    (rest : List Nat) (hks : ks < 2 ^ 32) (hvs : vs < 2 ^ 32) :
    parseHeader (pre ++ (ty.toTag :: (encodeVarint ks ++ (encodeVarint vs ++ rest))))
      pre.length = some (ty, ks, vs) := by
  have hks5 := encodeVarint_length_le_five ks hks
  have hvs5 := encodeVarint_length_le_five vs hvs
  set f := pre ++ (ty.toTag :: (encodeVarint ks ++ (encodeVarint vs ++ rest))) with hf
  have hks_exact : readBytes f (pre.length + 1) (encodeVarint ks).length = encodeVarint ks := by
    have hshape : f = (pre ++ [ty.toTag]) ++ encodeVarint ks ++ (encodeVarint vs ++ rest) := by
      rw [hf]; simp
    have hlen : pre.length + 1 = (pre ++ [ty.toTag]).length := by simp
    rw [hshape, hlen]
    exact readBytes_exact _ _ _
  have hvs_exact : readBytes f (pre.length + 1 + (encodeVarint ks).length)
      (encodeVarint vs).length = encodeVarint vs := by
    have hshape : f = ((pre ++ [ty.toTag]) ++ encodeVarint ks) ++ encodeVarint vs ++ rest := by
      rw [hf]; simp
    have hlen : pre.length + 1 + (encodeVarint ks).length
        = ((pre ++ [ty.toTag]) ++ encodeVarint ks).length := by simp; omega
    rw [hshape, hlen]
    exact readBytes_exact _ _ _
  have htail : readBytes f (pre.length + 1) 10
      = encodeVarint ks ++ (encodeVarint vs
          ++ readBytes f (pre.length + 1 + (encodeVarint ks).length + (encodeVarint vs).length)
            (10 - (encodeVarint ks).length - (encodeVarint vs).length)) := by
    have h10 : (10 : Nat) = (encodeVarint ks).length + ((encodeVarint vs).length
        + (10 - (encodeVarint ks).length - (encodeVarint vs).length)) := by omega
    rw [h10, readBytes_add, readBytes_add, hks_exact, hvs_exact]
    have harith : (encodeVarint ks).length + ((encodeVarint vs).length
          + (10 - (encodeVarint ks).length - (encodeVarint vs).length))
          - (encodeVarint ks).length - (encodeVarint vs).length
        = 10 - (encodeVarint ks).length - (encodeVarint vs).length := by omega
    rw [harith]
  have hb0 : f.getD pre.length 0 = ty.toTag := by
    rw [hf]; exact getD_at_append pre _ _
  unfold parseHeader
  rw [maxHeader_eq, show (11 : Nat) = 10 + 1 from rfl, readBytes_cons, hb0, htail]
  dsimp only
  rw [fromTag_toTag]
  dsimp only
  rw [decodeVarint_encode ks _ hks]
  dsimp only
  rw [List.drop_left, decodeVarint_encode vs _ hvs]



theorem readLogRecord_at (pre suf : List Nat) (r : LogRecord) (hne : r.key ≠ [])
    (hk : r.key.length < 2 ^ 32) (hv : r.value.length < 2 ^ 32) :
    readLogRecord (pre ++ r.encode ++ suf) pre.length = .ok (r, r.encode.length) := by
  have hshape : pre ++ r.encode ++ suf
      = pre ++ (r.record_type.toTag :: (encodeVarint r.key.length
          ++ (encodeVarint r.value.length ++ (r.key ++ (r.value ++ toBE4 r.getCrc) ++ suf)))) := by
    rw [encode_unfold]; simp
  have hph : parseHeader (pre ++ r.encode ++ suf) pre.length
      = some (r.record_type, r.key.length, r.value.length) := by
    rw [hshape]
    exact parseHeader_at pre r.record_type r.key.length r.value.length _ hk hv
  unfold readLogRecord
  rw [hph]
  dsimp only
  rw [if_neg (by simp [hne])]
  have hkv : readBytes (pre ++ r.encode ++ suf)
      (pre.length + (1 + lengthDelimiterLen r.key.length + lengthDelimiterLen r.value.length))
      (r.key.length + r.value.length + 4)
      = r.key ++ r.value ++ toBE4 r.getCrc := by
    have hshape2 : pre ++ r.encode ++ suf
        = (pre ++ (r.record_type.toTag :: (encodeVarint r.key.length
            ++ encodeVarint r.value.length)))
          ++ (r.key ++ r.value ++ toBE4 r.getCrc) ++ suf := by
      rw [encode_unfold]; simp
    have hlen : pre.length + (1 + lengthDelimiterLen r.key.length
          + lengthDelimiterLen r.value.length)
        = (pre ++ (r.record_type.toTag :: (encodeVarint r.key.length
            ++ encodeVarint r.value.length))).length := by
      simp [lengthDelimiterLen]; omega
    have hlen2 : r.key.length + r.value.length + 4
        = (r.key ++ r.value ++ toBE4 r.getCrc).length := by
      simp [toBE4]
      omega
    rw [hshape2, hlen, hlen2]
    exact readBytes_exact _ _ _
  rw [hkv]
  have htake : (r.key ++ r.value ++ toBE4 r.getCrc).take r.key.length = r.key := by
    rw [List.append_assoc]; exact List.take_left _ _
  have hdrop1 : ((r.key ++ r.value ++ toBE4 r.getCrc).drop r.key.length).take r.value.length
      = r.value := by
    rw [List.append_assoc, List.drop_left, List.take_left]
  have hdrop2 : (r.key ++ r.value ++ toBE4 r.getCrc).drop (r.key.length + r.value.length)
      = toBE4 r.getCrc := by
    have : (r.key ++ r.value).length = r.key.length + r.value.length := by simp
    rw [← this, List.drop_left]
  rw [htake, hdrop1, hdrop2]
  simp only [show ({ key := r.key, value := r.value, record_type := r.record_type }
      : LogRecord) = r from rfl]
  have hcrc : getU32BE (toBE4 r.getCrc) = r.getCrc :=
    getU32BE_toBE4 _ (by unfold LogRecord.getCrc; exact crc32_lt _)
  rw [if_neg (by simp [hcrc])]
  rw [encode_length]
  rfl


theorem parseHeader_zeros (f : List Nat) (ofs : Nat)
    (h : readBytes f ofs maxLogRecordHeaderSize = List.replicate 11 0) :
    parseHeader f ofs = some (.Normal, 0, 0) := by
  unfold parseHeader
  rw [h]
  rfl

/-- Reading at or past the end of a file hits zeroed space: type byte 0,
both length delimiters 0, so the end-of-file sentinel is returned. -/
theorem readLogRecord_past_end (f : List Nat) (ofs : Nat) (h : f.length ≤ ofs) :
    readLogRecord f ofs = .err .ReadDataFileEOF := by
  unfold readLogRecord
  rw [parseHeader_zeros f ofs (by rw [maxHeader_eq]; exact readBytes_past_end f ofs _ h)]
  simp

theorem encodedLength_as_header (r : LogRecord) :
    r.encodedLength = recHeaderSize r + r.key.length + r.value.length + 4 := by
  unfold LogRecord.encodedLength recHeaderSize
  omega

/-! ### Claim C4 -/

/-- C4: for every log record with a non-empty key (and `u32`-sized key and
value), `DataFile::read_log_record` applied to the bytes produced by
`LogRecord::encode` returns the original record, and the reported consumed
byte count equals `header_len + key_len + value_len + 4`, which is the
length of the encoded bytes. -/
theorem C4_decode_encode_roundtrip (r : LogRecord) (hne : r.key ≠ [])
    (hk : r.key.length < 2 ^ 32) (hv : r.value.length < 2 ^ 32) :
    readLogRecord r.encode 0
        = .ok (r, recHeaderSize r + r.key.length + r.value.length + 4)
      ∧ recHeaderSize r + r.key.length + r.value.length + 4 = r.encode.length := by
  have h := readLogRecord_at [] [] r hne hk hv
  simp only [List.nil_append, List.append_nil, List.length_nil] at h
  have hlen : r.encode.length = recHeaderSize r + r.key.length + r.value.length + 4 := by
    rw [encode_length, encodedLength_as_header]
  constructor
  · rw [h, hlen]
  · omega

/-- Witness for C4 at the record `("k", "v", Normal)`. -/
theorem C4_decode_encode_roundtrip_witness :
    readLogRecord (LogRecord.encode ⟨[107], [118], .Normal⟩) 0
        = .ok (⟨[107], [118], .Normal⟩,
            recHeaderSize ⟨[107], [118], .Normal⟩ + 1 + 1 + 4)
      ∧ recHeaderSize ⟨[107], [118], .Normal⟩ + 1 + 1 + 4
        = (LogRecord.encode ⟨[107], [118], .Normal⟩).length :=
  C4_decode_encode_roundtrip ⟨[107], [118], .Normal⟩ (by decide) (by norm_num) (by norm_num)

/-! ### Claim C6 -/

/-- C6: `read_log_record` returns the end-of-file sentinel exactly when the
parsed header has both `key_size = 0` and `value_size = 0` (as happens when
reading zeroed, never-written space), and it never returns that sentinel
when decoding an encoded record with a non-empty key. -/
theorem C6_eof_sentinel_iff_zero_header :
    (∀ (f : List Nat) (ofs : Nat),
        readLogRecord f ofs = .err .ReadDataFileEOF
          ↔ ∃ ty, parseHeader f ofs = some (ty, 0, 0))
      ∧ (∀ r : LogRecord, r.key ≠ [] → r.key.length < 2 ^ 32 →
          r.value.length < 2 ^ 32 →
          readLogRecord r.encode 0 ≠ .err .ReadDataFileEOF) := by
  constructor
  · intro f ofs
    unfold readLogRecord
    cases hp : parseHeader f ofs with
    | none => simp
    | some v =>
      obtain ⟨ty, ks, vs⟩ := v
      dsimp only
      by_cases hz : ks = 0 ∧ vs = 0
      · rw [if_pos hz]
        simp [hz.1, hz.2]
      · rw [if_neg hz]
        constructor
        · intro hcontra
          split at hcontra <;> simp_all
        · rintro ⟨ty', hty'⟩
          simp only [Option.some.injEq, Prod.mk.injEq] at hty'
          exact absurd ⟨hty'.2.1, hty'.2.2⟩ hz
  · intro r hne hk hv
    have h := readLogRecord_at [] [] r hne hk hv
    simp only [List.nil_append, List.append_nil, List.length_nil] at h
    rw [h]
    simp

/-- Witness for C6: an all-zero (never-written) region reads as the EOF
sentinel, and the concrete record `("k", "v", Normal)` never does. -/
theorem C6_eof_sentinel_iff_zero_header_witness :
    readLogRecord (List.replicate 3 0) 0 = .err .ReadDataFileEOF
      ∧ readLogRecord (LogRecord.encode ⟨[107], [118], .Normal⟩) 0
          ≠ .err .ReadDataFileEOF :=
  ⟨(C6_eof_sentinel_iff_zero_header.1 (List.replicate 3 0) 0).mpr
      ⟨.Normal, by decide⟩,
    C6_eof_sentinel_iff_zero_header.2 ⟨[107], [118], .Normal⟩ (by decide)
      (by norm_num) (by norm_num)⟩


set_option maxRecDepth 4096 in
theorem crcTable_top_nodup :
    ((List.range 256).map (fun i => crcTableEntry i / 2 ^ 24)).Nodup := by decide

theorem crcTable_top_inj (i j : Nat) (hi : i < 256) (hj : j < 256)
    (h : crcTableEntry i / 2 ^ 24 = crcTableEntry j / 2 ^ 24) : i = j := by
  have hnd := crcTable_top_nodup
  have hij := @List.Nodup.getElem_inj_iff _ _ hnd i (by simpa using hi)
    j (by simpa using hj)
  simp only [List.getElem_map, List.getElem_range] at hij
  exact hij.mp h

theorem crcTableEntry_inj (i j : Nat) (hi : i < 256) (hj : j < 256)
    (h : crcTableEntry i = crcTableEntry j) : i = j :=
  crcTable_top_inj i j hi hj (congrArg (· / 2 ^ 24) h)

theorem xor_div_two_pow (a b k : Nat) :
    (a ^^^ b) / 2 ^ k = a / 2 ^ k ^^^ b / 2 ^ k := by
  induction k with
  | zero => simp
  | succ k ih =>
    rw [pow_succ, ← Nat.div_div_eq_div_mul, ← Nat.div_div_eq_div_mul,
      ← Nat.div_div_eq_div_mul, ih, Nat.xor_div_two]

theorem xor_mod_two_pow (a b k : Nat) :
    (a ^^^ b) % 2 ^ k = a % 2 ^ k ^^^ b % 2 ^ k := by
  rw [← Nat.and_pow_two_sub_one_eq_mod, ← Nat.and_pow_two_sub_one_eq_mod,
    ← Nat.and_pow_two_sub_one_eq_mod, Nat.and_xor_distrib_right]

theorem crcStep_inj_state (b s s' : Nat) (hs : s < 2 ^ 32) (hs' : s' < 2 ^ 32)
    (h : crcStep s b = crcStep s' b) : s = s' := by
  unfold crcStep at h
  have hl : (s ^^^ b) % 256 < 256 := Nat.mod_lt _ (by norm_num)
  have hl' : (s' ^^^ b) % 256 < 256 := Nat.mod_lt _ (by norm_num)
  have htop : crcTableEntry ((s ^^^ b) % 256) / 2 ^ 24
      = crcTableEntry ((s' ^^^ b) % 256) / 2 ^ 24 := by
    have h24 := congrArg (· / 2 ^ 24) h
    simp only [xor_div_two_pow] at h24
    have hz : s / 256 / 2 ^ 24 = 0 := Nat.div_eq_of_lt (by omega)
    have hz' : s' / 256 / 2 ^ 24 = 0 := Nat.div_eq_of_lt (by omega)
    rw [hz, hz', Nat.zero_xor, Nat.zero_xor] at h24
    exact h24
  have hll : (s ^^^ b) % 256 = (s' ^^^ b) % 256 :=
    crcTable_top_inj _ _ hl hl' htop
  have hdiv : s / 256 = s' / 256 := by
    rw [hll] at h
    exact Nat.xor_left_inj.mp h
  have hmod : s % 256 = s' % 256 := by
    have h256 : (256 : Nat) = 2 ^ 8 := by norm_num
    rw [h256, xor_mod_two_pow, xor_mod_two_pow] at hll
    exact Nat.xor_left_inj.mp hll
  omega

theorem crcStep_inj_byte (s b b' : Nat) (hb : b < 256) (hb' : b' < 256)
    (hne : b ≠ b') : crcStep s b ≠ crcStep s b' := by
  intro h
  unfold crcStep at h
  have hT := Nat.xor_right_inj.mp h
  have hll := crcTableEntry_inj _ _ (Nat.mod_lt _ (by norm_num))
    (Nat.mod_lt _ (by norm_num)) hT
  have h256 : (256 : Nat) = 2 ^ 8 := by norm_num
  rw [h256, xor_mod_two_pow, xor_mod_two_pow] at hll
  have := Nat.xor_right_inj.mp hll
  rw [Nat.mod_eq_of_lt (by omega : b < 2 ^ 8),
    Nat.mod_eq_of_lt (by omega : b' < 2 ^ 8)] at this
  exact hne this

theorem crcFold_inj (ys : List Nat) : ∀ s s', s < 2 ^ 32 → s' < 2 ^ 32 →
    s ≠ s' → crcFold s ys ≠ crcFold s' ys := by
  induction ys with
  | nil => intro s s' _ _ hne; simpa [crcFold] using hne
  | cons y ys ih =>
    intro s s' hs hs' hne
    have h1 : crcFold s (y :: ys) = crcFold (crcStep s y) ys := by
      simp [crcFold]
    have h2 : crcFold s' (y :: ys) = crcFold (crcStep s' y) ys := by
      simp [crcFold]
    rw [h1, h2]
    exact ih _ _ (crcStep_lt _ _ hs) (crcStep_lt _ _ hs')
      (fun h => hne (crcStep_inj_state y s s' hs hs' h))

/-- CRC-32 distinguishes two equal-length messages differing in one byte. -/
theorem crc32_ne_of_byte_change (xs ys : List Nat) (b b' : Nat)
    (hb : b < 256) (hb' : b' < 256) (hne : b ≠ b') :
    crc32 (xs ++ b :: ys) ≠ crc32 (xs ++ b' :: ys) := by
  unfold crc32
  intro h
  have h2 : crcFold 0xFFFFFFFF (xs ++ b :: ys)
      = crcFold 0xFFFFFFFF (xs ++ b' :: ys) := Nat.xor_left_inj.mp h
  rw [show crcFold 0xFFFFFFFF (xs ++ b :: ys)
        = crcFold (crcStep (crcFold 0xFFFFFFFF xs) b) ys from by simp [crcFold],
      show crcFold 0xFFFFFFFF (xs ++ b' :: ys)
        = crcFold (crcStep (crcFold 0xFFFFFFFF xs) b') ys from by simp [crcFold]] at h2
  have hu : crcFold 0xFFFFFFFF xs < 2 ^ 32 := crcFold_lt xs _ (by norm_num)
  exact crcFold_inj ys _ _ (crcStep_lt _ _ hu) (crcStep_lt _ _ hu)
    (crcStep_inj_byte _ b b' hb hb' hne) h2



theorem set_append_right' (l m : List Nat) (i x : Nat) :
    (l ++ m).set (l.length + i) x = l ++ m.set i x := by
  induction l with
  | nil => simp
  | cons a t ih =>
    have h1 : (a :: t).length + i = t.length + i + 1 := by
      simp [List.length_cons]; omega
    rw [List.cons_append, h1]
    show a :: ((t ++ m).set (t.length + i) x) = a :: (t ++ m.set i x)
    rw [ih]

theorem hdr_length (r : LogRecord) :
    (r.record_type.toTag :: (encodeVarint r.key.length ++ encodeVarint r.value.length)).length
      = recHeaderSize r := by
  simp [recHeaderSize, lengthDelimiterLen]
  omega

/-- Overwriting one byte in the key/value region of an encoded record with a
different byte value makes decoding fail the CRC check. -/
theorem readLogRecord_set_kv (r : LogRecord) (p b' : Nat)
    (hne : r.key ≠ []) (hk : r.key.length < 2 ^ 32) (hv : r.value.length < 2 ^ 32)
    (hbytes : ∀ b ∈ r.key ++ r.value, b < 256)
    (hp1 : recHeaderSize r ≤ p)
    (hp2 : p < recHeaderSize r + r.key.length + r.value.length)
    (hb' : b' < 256) (hchg : b' ≠ r.encode.getD p 0) :
    readLogRecord (r.encode.set p b') 0 = .err .InvalidLogRecordCRC := by
  set hdr := r.record_type.toTag
    :: (encodeVarint r.key.length ++ encodeVarint r.value.length) with hhdr
  set kv := r.key ++ r.value with hkv
  set crcb := toBE4 r.getCrc with hcrcb
  have hkvlen : kv.length = r.key.length + r.value.length := by simp [hkv]
  have hshape : r.encode = hdr ++ (kv ++ crcb) := by
    rw [encode_unfold, hhdr, hkv, hcrcb]; simp
  set i := p - recHeaderSize r with hi
  have hip : p = hdr.length + i := by rw [hdr_length]; omega
  have hikv : i < kv.length := by omega
  -- the original byte at position p
  have horig : r.encode.getD p 0 = kv[i] := by
    rw [hshape, hip, List.getD_eq_getElem?_getD, List.getElem?_append_right (by omega)]
    have h3 : hdr.length + i - hdr.length = i := by omega
    rw [h3, List.getElem?_append_left (by omega)]
    simp [List.getElem?_eq_getElem hikv]
  set kv' := kv.set i b' with hkv'
  have hkv'len : kv'.length = kv.length := by simp [hkv']
  have hset : r.encode.set p b' = hdr ++ (kv' ++ crcb) := by
    rw [hshape, hip, set_append_right', hkv']
    congr 1
    exact List.set_append_left i b' hikv
  -- the mutated file parses to the same header
  have hph : parseHeader (r.encode.set p b') 0
      = some (r.record_type, r.key.length, r.value.length) := by
    rw [hset]
    have hshape2 : hdr ++ (kv' ++ crcb)
        = [] ++ (r.record_type.toTag :: (encodeVarint r.key.length
            ++ (encodeVarint r.value.length ++ (kv' ++ crcb)))) := by
      rw [hhdr]; simp
    rw [hshape2]
    have := parseHeader_at [] r.record_type r.key.length r.value.length (kv' ++ crcb) hk hv
    simpa using this
  unfold readLogRecord
  rw [hph]
  dsimp only
  rw [if_neg (by simp [hne])]
  have hkvbuf : readBytes (r.encode.set p b')
      (0 + (1 + lengthDelimiterLen r.key.length + lengthDelimiterLen r.value.length))
      (r.key.length + r.value.length + 4) = kv' ++ crcb := by
    rw [hset]
    have hlen1 : 0 + (1 + lengthDelimiterLen r.key.length
        + lengthDelimiterLen r.value.length) = hdr.length := by
      rw [hdr_length]; simp [recHeaderSize]
    have hlen2 : r.key.length + r.value.length + 4 = (kv' ++ crcb).length := by
      simp [hkv'len, hkvlen, hcrcb, toBE4]
    rw [hlen1, hlen2]
    have hshape3 : hdr ++ (kv' ++ crcb) = hdr ++ (kv' ++ crcb) ++ [] := by simp
    rw [hshape3]
    exact readBytes_exact hdr (kv' ++ crcb) []
  rw [hkvbuf]
  -- the decoded pieces of the mutated buffer
  have htake : (kv' ++ crcb).take r.key.length = kv'.take r.key.length :=
    List.take_append_of_le_length (by omega)
  have hdrop1 : ((kv' ++ crcb).drop r.key.length).take r.value.length
      = kv'.drop r.key.length := by
    rw [List.drop_append_eq_append_drop]
    have h4 : r.key.length - kv'.length = 0 := by omega
    rw [h4, List.drop_zero]
    rw [List.take_append_of_le_length (by rw [List.length_drop, hkv'len]; omega)]
    apply List.take_of_length_le
    rw [List.length_drop, hkv'len]
    omega
  have hdrop2 : (kv' ++ crcb).drop (r.key.length + r.value.length) = crcb := by
    have h5 : r.key.length + r.value.length = kv'.length := by omega
    rw [h5, List.drop_left]
  rw [htake, hdrop1, hdrop2]
  have hstored : getU32BE crcb = r.getCrc := by
    rw [hcrcb]
    exact getU32BE_toBE4 _ (by unfold LogRecord.getCrc; exact crc32_lt _)
  -- the re-encoded prefix of the decoded record is the original prefix
  -- with the byte at position p changed
  have hklen : (kv'.take r.key.length).length = r.key.length := by
    simp [hkv'len, hkvlen]
  have hvlen : (kv'.drop r.key.length).length = r.value.length := by
    simp [hkv'len, hkvlen]
  have hpfx : (LogRecord.encodedPrefix
      ⟨kv'.take r.key.length, kv'.drop r.key.length, r.record_type⟩)
      = hdr ++ kv' := by
    unfold LogRecord.encodedPrefix
    rw [hklen, hvlen]
    simp only [hhdr]
    simp [List.append_assoc]
  have horigpfx : r.encodedPrefix = hdr ++ kv := by
    unfold LogRecord.encodedPrefix
    rw [hhdr, hkv]
    simp [List.append_assoc]
  have hcrcne : LogRecord.getCrc
        ⟨kv'.take r.key.length, kv'.drop r.key.length, r.record_type⟩
      ≠ r.getCrc := by
    have hkvdecomp : kv = kv.take i ++ kv[i] :: kv.drop (i + 1) := by
      conv_lhs => rw [← List.take_append_drop i kv, List.drop_eq_getElem_cons hikv]
    unfold LogRecord.getCrc
    rw [hpfx, horigpfx, hkv']
    rw [List.set_eq_take_cons_drop b' hikv]
    rw [show hdr ++ (kv.take i ++ b' :: kv.drop (i + 1))
        = (hdr ++ kv.take i) ++ b' :: kv.drop (i + 1) from by simp]
    conv_rhs => rw [hkvdecomp]
    rw [show hdr ++ (kv.take i ++ kv[i] :: kv.drop (i + 1))
        = (hdr ++ kv.take i) ++ kv[i] :: kv.drop (i + 1) from by simp]
    exact crc32_ne_of_byte_change (hdr ++ kv.take i) (kv.drop (i + 1)) b' kv[i] hb'
      (hbytes kv[i] (List.getElem_mem hikv)) (by
        intro hcon
        exact hchg (by rw [horig, hcon]))
  rw [if_pos (by rw [hstored]; exact fun h => hcrcne h.symm)]



/-- C5 as stated is false: flipping the type byte (position 0, outside the
four CRC bytes) of the encoded record `("k", "v", Normal)` from `0` to its
complement `255` makes `LogRecordType::from_u8` panic instead of decoding
to the `InvalidLogRecordCRC` error. -/
theorem C5_counterexample_type_byte_panics :
    readLogRecord ((LogRecord.encode ⟨[107], [118], .Normal⟩).set 0 255) 0
      = .panic := by decide

/-- C5 amended: overwriting any single byte in the key/value region of an
encoded record (the bytes other than the header and the four CRC bytes)
with a different byte value makes `read_log_record` return
`InvalidLogRecordCRC`; a change of the type byte may panic instead and a
change of a length byte may be misparsed (see the counterexample). -/
theorem C5_corrupt_kv_byte_fails_crc (r : LogRecord) (p b' : Nat)
    (hne : r.key ≠ []) (hk : r.key.length < 2 ^ 32) (hv : r.value.length < 2 ^ 32)
    (hbytes : ∀ b ∈ r.key ++ r.value, b < 256)
    (hp1 : recHeaderSize r ≤ p)
    (hp2 : p < recHeaderSize r + r.key.length + r.value.length)
    (hb' : b' < 256) (hchg : b' ≠ r.encode.getD p 0) :
    readLogRecord (r.encode.set p b') 0 = .err .InvalidLogRecordCRC :=
  readLogRecord_set_kv r p b' hne hk hv hbytes hp1 hp2 hb' hchg

/-- Witness for the amended C5: overwrite the key byte of `("k", "v",
Normal)` (position 3, right after the three header bytes) with `0`. -/
theorem C5_corrupt_kv_byte_fails_crc_witness :
    readLogRecord ((LogRecord.encode ⟨[107], [118], .Normal⟩).set 3 0) 0
      = .err .InvalidLogRecordCRC :=
  C5_corrupt_kv_byte_fails_crc ⟨[107], [118], .Normal⟩ 3 0 (by decide)
    (by norm_num) (by norm_num) (by decide) (by decide) (by decide)
    (by norm_num) (by decide)



/-! ### Claim C3 -/

/-- C3 counterexample: with the merge lock free, reclaimable bytes 0 out of
1000 on-disk bytes, and a configured merge ratio of 1/2 (so the reclaim
fraction 0 is far below the threshold), the precondition phase of
`Engine::merge` reports no error at all — it does not return (and could
not return) a `MergeRatioUnreached` error, which is not even a variant of
`Errors`. -/
theorem C3_counterexample_no_ratio_check :
    mergeGate false 0 1000 1 2 = none := rfl

/-- C3 amended: `Engine::merge` performs no merge-ratio (and no disk-space)
precondition check: whenever the merge lock is free it proceeds to
compaction regardless of `reclaim_size`, the total on-disk size and
`data_file_merge_ratio`; its only gate is `try_lock`, whose failure yields
`MergeInProgress`. -/
theorem C3_merge_gate_ignores_ratio
    (reclaimSize totalDiskSize mergeRatioNum mergeRatioDen : Nat) :
    mergeGate false reclaimSize totalDiskSize mergeRatioNum mergeRatioDen = none
      ∧ mergeGate true reclaimSize totalDiskSize mergeRatioNum mergeRatioDen
          = some .MergeInProgress :=
  ⟨rfl, rfl⟩

/-! ### Claim C7 -/

theorem pendLookup_eq_none_of_not_mem (p : Pending) (key : List Nat)
    (h : key ∉ p.map Prod.fst) : pendLookup p key = none := by
  induction p with
  | nil => rfl
  | cons kv t ih =>
    simp only [List.map_cons, List.mem_cons, not_or] at h
    unfold pendLookup
    rw [if_neg h.1]
    exact ih h.2

theorem pendLookup_pendRemove_self (p : Pending) (key : List Nat)
    (hnd : (p.map Prod.fst).Nodup) :
    pendLookup (pendRemove p key) key = none := by
  induction p with
  | nil => rfl
  | cons kv t ih =>
    simp only [List.map_cons, List.nodup_cons] at hnd
    by_cases hk : key = kv.1
    · unfold pendRemove
      rw [if_pos hk]
      subst hk
      exact pendLookup_eq_none_of_not_mem t kv.1 hnd.1
    · unfold pendRemove
      rw [if_neg hk]
      unfold pendLookup
      rw [if_neg hk]
      exact ih hnd.2

theorem pendLookup_pendInsert_self (p : Pending) (key : List Nat) (r : LogRecord) :
    pendLookup (pendInsert p key r) key = some r := by
  induction p with
  | nil => simp [pendInsert, pendLookup]
  | cons kv t ih =>
    unfold pendInsert
    by_cases hk : key = kv.1
    · rw [if_pos hk]
      unfold pendLookup
      rw [if_pos rfl]
    · rw [if_neg hk]
      unfold pendLookup
      rw [if_neg hk]
      exact ih

/-- C7 counterexample: with an empty engine index and a pending set holding
a Normal record for key `[1]`, `WriteBatch::delete([1])` succeeds but
*removes* the pending entry — the call is neither a no-op (the pending set
changes) nor an insertion of a Deleted record (the key has no pending
entry afterwards). -/
theorem C7_counterexample_delete_removes_pending :
    batchDelete [] [([1], ⟨[1], [9], .Normal⟩)] [1] = .ok []
      ∧ ([] : Pending) ≠ [([1], ⟨[1], [9], .Normal⟩)]
      ∧ pendLookup [] [1] = none := by
  refine ⟨by decide, by decide, rfl⟩

/-- C7 amended: for a non-empty key, `WriteBatch::delete(key)` is a no-op
success exactly when the key has no index entry and no pending entry; when
the key has no index entry but is pending, it removes the pending entry
and succeeds; when the key has an index entry, it inserts (or overwrites)
a Deleted record for the key in the pending set. -/
theorem C7_batch_delete_cases (engineIndex : Index) (p : Pending)
    (key : List Nat) (hne : key ≠ []) (hnd : (p.map Prod.fst).Nodup) :
    (idxGet engineIndex key = none → pendContains p key = false →
        batchDelete engineIndex p key = .ok p)
      ∧ (idxGet engineIndex key = none → pendContains p key = true →
          batchDelete engineIndex p key = .ok (pendRemove p key)
            ∧ pendLookup (pendRemove p key) key = none)
      ∧ (∀ pos, idxGet engineIndex key = some pos →
          batchDelete engineIndex p key
              = .ok (pendInsert p key ⟨key, [], .Deleted⟩)
            ∧ pendLookup (pendInsert p key ⟨key, [], .Deleted⟩) key
              = some ⟨key, [], .Deleted⟩) := by
  refine ⟨?_, ?_, ?_⟩
  · intro hidx hpend
    unfold batchDelete
    rw [if_neg hne, hidx]
    simp [hpend]
  · intro hidx hpend
    constructor
    · unfold batchDelete
      rw [if_neg hne, hidx]
      simp [hpend]
    · exact pendLookup_pendRemove_self p key hnd
  · intro pos hidx
    constructor
    · unfold batchDelete
      rw [if_neg hne, hidx]
    · exact pendLookup_pendInsert_self p key _

/-- Witness for C7 at a concrete index holding key `[1]` and an empty
pending set: delete buffers a Deleted record. -/
theorem C7_batch_delete_cases_witness :
    batchDelete [([1], ⟨1, 0, 7⟩)] [] [1]
        = .ok (pendInsert [] [1] ⟨[1], [], .Deleted⟩)
      ∧ pendLookup (pendInsert [] [1] ⟨[1], [], .Deleted⟩) [1]
        = some ⟨[1], [], .Deleted⟩ :=
  (C7_batch_delete_cases [([1], ⟨1, 0, 7⟩)] [] [1] (by decide) (by decide)).2.2
    ⟨1, 0, 7⟩ (by decide)



theorem ofLookup_ofInsert_self (m : List (Nat × List Nat)) (fid : Nat) (f : List Nat) :
    ofLookup (ofInsert m fid f) fid = some f := by
  induction m with
  | nil => simp [ofInsert, ofLookup]
  | cons kv t ih =>
    unfold ofInsert
    by_cases hk : fid = kv.1
    · rw [if_pos hk]
      unfold ofLookup
      rw [if_pos rfl]
    · rw [if_neg hk]
      unfold ofLookup
      rw [if_neg hk]
      exact ih

/-! ### Claim C8 -/

/-- C8: in `Engine::append_log_record`, the returned position is always
`(post-rotation active file id, write offset before this write, encoded
length)` — the first conjunct states it as `(new active id, new offset − 
encoded length, encoded length)`, the offset before the write.  When
`write_offset + encoded_len` exceeds `data_file_size`, the old active file
is placed in the closed map under its id and a fresh empty segment with
id+1 becomes active, so the position is `(old id + 1, 0, encoded length)`;
otherwise the active file id is unchanged and the offset is the old
`write_offset`. -/
theorem C8_append_log_record_rotation (s : EngineState) (r : LogRecord) :
    ((appendLogRecord s r).2 = ⟨(appendLogRecord s r).1.activeId,
        (appendLogRecord s r).1.activeOfs - r.encode.length, r.encode.length⟩)
      ∧ (s.activeOfs + r.encode.length > s.opts.dataFileSize →
          ofLookup (appendLogRecord s r).1.oldFiles s.activeId = some s.activeFile
            ∧ (appendLogRecord s r).1.activeId = s.activeId + 1
            ∧ (appendLogRecord s r).1.activeFile = r.encode
            ∧ (appendLogRecord s r).2 = ⟨s.activeId + 1, 0, r.encode.length⟩)
      ∧ (¬ s.activeOfs + r.encode.length > s.opts.dataFileSize →
          (appendLogRecord s r).1.activeId = s.activeId
            ∧ (appendLogRecord s r).2 = ⟨s.activeId, s.activeOfs, r.encode.length⟩) := by
  by_cases hrot : s.activeOfs + r.encode.length > s.opts.dataFileSize
  · refine ⟨?_, fun _ => ⟨?_, ?_, ?_, ?_⟩, fun hn => absurd hrot hn⟩ <;>
      · simp only [appendLogRecord, if_pos hrot]
        split <;> simp [ofLookup_ofInsert_self]
  · refine ⟨?_, fun hy => absurd hy hrot, fun _ => ⟨?_, ?_⟩⟩ <;>
      · simp only [appendLogRecord, if_neg hrot]
        split <;> simp

/-- Witness for C8: a concrete engine whose active file (3 bytes written,
threshold 4) no longer fits the 11-byte record, so the append rotates. -/
theorem C8_append_log_record_rotation_witness :
    ofLookup (appendLogRecord
        ⟨1, [9, 9, 9], 3, [], [], 1, 0, 0, ⟨4, false, 0⟩⟩
        ⟨[0, 107], [118], .Normal⟩).1.oldFiles 1 = some [9, 9, 9]
      ∧ (appendLogRecord ⟨1, [9, 9, 9], 3, [], [], 1, 0, 0, ⟨4, false, 0⟩⟩
          ⟨[0, 107], [118], .Normal⟩).1.activeId = 2
      ∧ (appendLogRecord ⟨1, [9, 9, 9], 3, [], [], 1, 0, 0, ⟨4, false, 0⟩⟩
          ⟨[0, 107], [118], .Normal⟩).1.activeFile
        = (⟨[0, 107], [118], .Normal⟩ : LogRecord).encode
      ∧ (appendLogRecord ⟨1, [9, 9, 9], 3, [], [], 1, 0, 0, ⟨4, false, 0⟩⟩
          ⟨[0, 107], [118], .Normal⟩).2
        = ⟨2, 0, (⟨[0, 107], [118], .Normal⟩ : LogRecord).encode.length⟩ :=
  (C8_append_log_record_rotation ⟨1, [9, 9, 9], 3, [], [], 1, 0, 0, ⟨4, false, 0⟩⟩
    ⟨[0, 107], [118], .Normal⟩).2.1 (by decide)




theorem applyIndexOp_iter (w : IndexWorld) (op : IndexOp) :
    (applyIndexOp w op).iter = w.iter := by
  cases op <;> rfl

theorem applyIndexOps_iter (w : IndexWorld) (ops : List IndexOp) :
    (applyIndexOps w ops).iter = w.iter := by
  induction ops generalizing w with
  | nil => rfl
  | cons op rest ih =>
    unfold applyIndexOps
    rw [ih, applyIndexOp_iter]

theorem iterLoop_nil (c : Nat) (o : IteratorOptions) : iterLoop [] c o = none := rfl

theorem iterLoop_cons (e : List Nat × LogRecordPos)
    (rest : List (List Nat × LogRecordPos)) (c : Nat) (o : IteratorOptions) :
    iterLoop (e :: rest) c o
      = if o.pfx = [] ∨ o.pfx.isPrefixOf e.1 then some (e, c + 1)
        else iterLoop rest (c + 1) o := rfl

theorem iterNext_lt (items : List (List Nat × LogRecordPos)) (curr : Nat)
    (o : IteratorOptions) (hcl : curr < items.length) :
    iterNext ⟨items, curr, o⟩
      = (match iterLoop (items.drop curr) curr o with
         | some (item, c) => (some item, ⟨items, c, o⟩)
         | none => (none, ⟨items, items.length, o⟩)) := by
  unfold iterNext
  rw [if_neg (by simpa using Nat.not_le.mpr hcl)]

theorem iterDrainKeys_eq (items : List (List Nat × LogRecordPos))
    (o : IteratorOptions) :
    ∀ (rem : List (List Nat × LogRecordPos)) (curr fuel : Nat),
      items.drop curr = rem → rem.length + 1 ≤ fuel →
      iterDrainKeys ⟨items, curr, o⟩ fuel
        = (rem.map Prod.fst).filter
            (fun k => decide (o.pfx = [] ∨ o.pfx.isPrefixOf k)) := by
  intro rem
  induction rem with
  | nil =>
    intro curr fuel hdrop hfuel
    have hcl : items.length ≤ curr := List.drop_eq_nil_iff.mp hdrop
    cases fuel with
    | zero => omega
    | succ fuel =>
      unfold iterDrainKeys iterNext
      rw [if_pos (by simpa using hcl)]
      simp
  | cons e rest ih =>
    intro curr fuel hdrop hfuel
    have hcl : curr < items.length := by
      by_contra hcon
      rw [List.drop_eq_nil_iff.mpr (by omega)] at hdrop
      simp at hdrop
    have hdrop2 : items.drop (curr + 1) = rest := by
      have h1 := congrArg (List.drop 1) hdrop
      rw [List.drop_drop] at h1
      simpa using h1
    cases fuel with
    | zero => simp only [List.length_cons] at hfuel; omega
    | succ fuel =>
      by_cases hm : o.pfx = [] ∨ o.pfx.isPrefixOf e.1
      · have hnext : iterNext ⟨items, curr, o⟩ = (some e, ⟨items, curr + 1, o⟩) := by
          rw [iterNext_lt items curr o hcl, hdrop, iterLoop_cons, if_pos hm]
        unfold iterDrainKeys
        rw [hnext]
        dsimp only
        rw [ih (curr + 1) fuel hdrop2 (by simp only [List.length_cons] at hfuel; omega)]
        simp only [List.map_cons, List.filter_cons]
        rw [if_pos (by simpa using hm)]
      · have hnextL : iterNext ⟨items, curr, o⟩
            = (match iterLoop rest (curr + 1) o with
               | some (item, c) => (some item, ⟨items, c, o⟩)
               | none => (none, ⟨items, items.length, o⟩)) := by
          rw [iterNext_lt items curr o hcl, hdrop, iterLoop_cons, if_neg hm]
        have hstep : iterDrainKeys ⟨items, curr, o⟩ (fuel + 1)
            = iterDrainKeys ⟨items, curr + 1, o⟩ (fuel + 1) := by
          cases hloop : iterLoop rest (curr + 1) o with
          | none =>
            conv_lhs => rw [iterDrainKeys, hnextL, hloop]
            by_cases hlen2 : items.length ≤ curr + 1
            · conv_rhs => rw [iterDrainKeys, iterNext]
              rw [if_pos (by simpa using hlen2)]
            · conv_rhs => rw [iterDrainKeys, iterNext_lt items (curr + 1) o
                  (by omega), hdrop2, hloop]
          | some v =>
            obtain ⟨item, c⟩ := v
            have hlen2 : curr + 1 < items.length := by
              by_contra hcon
              rw [List.drop_eq_nil_iff.mpr (by omega)] at hdrop2
              rw [← hdrop2] at hloop
              rw [iterLoop_nil] at hloop
              cases hloop
            conv_lhs => rw [iterDrainKeys, hnextL, hloop]
            conv_rhs => rw [iterDrainKeys, iterNext_lt items (curr + 1) o hlen2,
              hdrop2, hloop]
        rw [hstep, ih (curr + 1) (fuel + 1) hdrop2
          (by simp only [List.length_cons] at hfuel; omega)]
        simp only [List.map_cons, List.filter_cons]
        rw [if_neg (by simpa using hm)]

/-! ### Claim C10 -/

/-- C10: `BTree::iterator` copies every `(key, position)` pair into the
iterator's private vector at creation time, so no sequence of later index
`put`/`delete` operations changes the keys the iterator yields: draining
the iterator created from `tree` always produces exactly the keys of
`tree` at creation time (reversed when requested, filtered by the
configured prefix), whatever `ops` later did to the index. -/
theorem C10_iterator_snapshot_immune_to_updates (tree : Index)
    (o : IteratorOptions) (ops : List IndexOp) :
    iterDrainKeys (applyIndexOps ⟨tree, btreeIterator tree o⟩ ops).iter
        ((btreeIterator tree o).items.length + 1)
      = ((if o.reverse then tree.reverse else tree).map Prod.fst).filter
          (fun k => decide (o.pfx = [] ∨ o.pfx.isPrefixOf k)) := by
  rw [applyIndexOps_iter]
  exact iterDrainKeys_eq (if o.reverse then tree.reverse else tree) o
    (if o.reverse then tree.reverse else tree) 0 _ (by simp) (by simp [btreeIterator])




theorem applySeqUpdates_cons (u : List Nat × LogRecordType × LogRecordPos)
    (upds : List (List Nat × LogRecordType × LogRecordPos)) (acc : Index × Nat) :
    applySeqUpdates (u :: upds) acc
      = applySeqUpdates upds (updateIndex acc.1 acc.2 u.1 u.2.1 u.2.2) := by
  simp [applySeqUpdates]

theorem applySeqUpdates_append (us vs : List (List Nat × LogRecordType × LogRecordPos))
    (acc : Index × Nat) :
    applySeqUpdates (us ++ vs) acc = applySeqUpdates vs (applySeqUpdates us acc) := by
  simp [applySeqUpdates, List.foldl_append]

theorem applyTxnRecords_eq (records : List TransactionRecord) :
    ∀ (idx : Index) (rc : Nat),
      applyTxnRecords idx rc records
        = applySeqUpdates
            (records.map fun tr => (tr.record.key, tr.record.record_type, tr.pos))
            (idx, rc) := by
  induction records with
  | nil => intro idx rc; simp [applyTxnRecords, applySeqUpdates]
  | cons tr rest ih =>
    intro idx rc
    unfold applyTxnRecords
    rw [List.map_cons, applySeqUpdates_cons]
    dsimp only
    rw [← ih]

theorem loadSeq_spec (rs : List (LogRecord × LogRecordPos)) :
    ∀ (st st' : LoadState), loadSeq rs st = .ok st' →
      (st'.index, st'.reclaim)
        = applySeqUpdates (specCommittedGo st.txnBuf rs) (st.index, st.reclaim) := by
  induction rs with
  | nil =>
    intro st st' h
    unfold loadSeq at h
    cases h
    rfl
  | cons rp rest ih =>
    intro st st' h
    obtain ⟨r, pos⟩ := rp
    unfold loadSeq at h
    unfold specCommittedGo
    cases hparse : parseLogRecordKey r.key with
    | none =>
      unfold loadDispatch at h
      rw [hparse] at h
      dsimp only at h
      cases h
    | some kv =>
      obtain ⟨key, seq⟩ := kv
      unfold loadDispatch at h
      rw [hparse] at h
      dsimp only at h
      dsimp only
      by_cases hseq : seq = nonTransactionSequence
      · rw [if_pos hseq] at h
        dsimp only at h
        rw [if_pos hseq]
        rw [applySeqUpdates_cons]
        dsimp only
        -- the dispatched state: index/reclaim updated, buffer untouched,
        -- maxSeq not bumped by sequence 0
        have hmax : ¬ seq > st.maxSeq := by
          rw [hseq]; unfold nonTransactionSequence; omega
        rw [if_neg hmax] at h
        have := ih _ st' h
        rw [this]
      · rw [if_neg hseq] at h
        rw [if_neg hseq]
        by_cases hfin : r.record_type = LogRecordType.TxnFinished
        · rw [if_pos hfin] at h ⊢
          cases hbuf : bufLookup st.txnBuf seq with
          | none =>
            rw [hbuf] at h
            dsimp only at h
            cases h
          | some records =>
            rw [hbuf] at h
            dsimp only at h
            simp only [Option.getD_some]
            rw [applySeqUpdates_append]
            split at h
            next hgt =>
              have := ih _ st' h
              rw [this]
              dsimp only
              rw [applyTxnRecords_eq]
            next hgt =>
              have := ih _ st' h
              rw [this]
              dsimp only
              rw [applyTxnRecords_eq]
        · rw [if_neg hfin] at h ⊢
          dsimp only at h
          split at h
          next hgt =>
            have := ih _ st' h
            rw [this]
          next hgt =>
            have := ih _ st' h
            rw [this]



/-! ### Claim C2 -/

/-- C2: in the startup scan, every record with a non-zero parsed sequence
is buffered per sequence and applied to the index only when the
`TxnFinished` record of that sequence arrives, in read order, while
sequence-0 records apply immediately; the final `(index, reclaim_size)` of
a successful scan equals the replay of exactly the committed projection of
the stream (`specCommittedUpdates`), so a sequence whose terminator never
appears contributes nothing to the index. -/
theorem C2_startup_scan_txn_buffering (rs : List (LogRecord × LogRecordPos))
    (st' : LoadState) (h : loadSeq rs ⟨[], 0, [], 0⟩ = .ok st') :
    (st'.index, st'.reclaim) = applySeqUpdates (specCommittedUpdates rs) ([], 0) := by
  have h2 := loadSeq_spec rs ⟨[], 0, [], 0⟩ st' h
  simpa [specCommittedUpdates] using h2

/-- Witness for C2: a committed transaction (sequence 1, with terminator)
lands in the index while an uncommitted one (sequence 2, no terminator) is
rolled back. -/
theorem C2_startup_scan_txn_buffering_witness :
    ((⟨[([1], ⟨1, 0, 10⟩)], 0,
        [(2, [⟨⟨[2], [6], .Normal⟩, ⟨1, 22, 10⟩⟩])], 2⟩ : LoadState).index,
      (⟨[([1], ⟨1, 0, 10⟩)], 0,
        [(2, [⟨⟨[2], [6], .Normal⟩, ⟨1, 22, 10⟩⟩])], 2⟩ : LoadState).reclaim)
      = applySeqUpdates (specCommittedUpdates
          [(⟨encodeLogRecordKey [1] 1, [5], .Normal⟩, ⟨1, 0, 10⟩),
           (⟨encodeLogRecordKey txnFinKey 1, [], .TxnFinished⟩, ⟨1, 10, 12⟩),
           (⟨encodeLogRecordKey [2] 2, [6], .Normal⟩, ⟨1, 22, 10⟩)]) ([], 0) :=
  C2_startup_scan_txn_buffering
    [(⟨encodeLogRecordKey [1] 1, [5], .Normal⟩, ⟨1, 0, 10⟩),
     (⟨encodeLogRecordKey txnFinKey 1, [], .TxnFinished⟩, ⟨1, 10, 12⟩),
     (⟨encodeLogRecordKey [2] 2, [6], .Normal⟩, ⟨1, 22, 10⟩)]
    ⟨[([1], ⟨1, 0, 10⟩)], 0, [(2, [⟨⟨[2], [6], .Normal⟩, ⟨1, 22, 10⟩⟩])], 2⟩
    (by decide)




/-! ### Index map lemmas -/

theorem keyCompare_self (k : List Nat) : keyCompare k k = .eq := by
  induction k with
  | nil => rfl
  | cons a t ih => unfold keyCompare; simp [ih]

theorem keyCompare_eq_iff (k k' : List Nat) : keyCompare k k' = .eq ↔ k = k' := by
  constructor
  · intro h
    induction k generalizing k' with
    | nil => cases k' with
      | nil => rfl
      | cons b bs => simp [keyCompare] at h
    | cons a t ih =>
      cases k' with
      | nil => simp [keyCompare] at h
      | cons b bs =>
        unfold keyCompare at h
        by_cases hab : a < b
        · simp [hab] at h
        · by_cases hba : b < a
          · simp [hab, hba] at h
          · have : a = b := by omega
            subst this
            simp [hab, hba] at h
            rw [ih bs h]
  · rintro rfl
    exact keyCompare_self k

theorem idxGet_cons (k0 : List Nat) (p0 : LogRecordPos) (t : Index) (k' : List Nat) :
    idxGet ((k0, p0) :: t) k' = if k' = k0 then some p0 else idxGet t k' := rfl

theorem idxGet_idxPut_self (m : Index) (k : List Nat) (p : LogRecordPos) :
    idxGet (idxPut m k p).2 k = some p := by
  induction m with
  | nil => simp [idxPut, idxGet]
  | cons kv t ih =>
    obtain ⟨k0, p0⟩ := kv
    unfold idxPut
    cases hc : keyCompare k k0 with
    | lt =>
      dsimp only
      rw [idxGet_cons, if_pos rfl]
    | eq =>
      dsimp only
      rw [idxGet_cons, if_pos rfl]
    | gt =>
      dsimp only
      rw [idxGet_cons, if_neg (by
        intro hcon
        subst hcon
        rw [keyCompare_self] at hc
        cases hc)]
      exact ih

theorem idxGet_idxPut_other (m : Index) (k k' : List Nat) (p : LogRecordPos)
    (hne : k' ≠ k) : idxGet (idxPut m k p).2 k' = idxGet m k' := by
  induction m with
  | nil => simp [idxPut, idxGet, hne]
  | cons kv t ih =>
    obtain ⟨k0, p0⟩ := kv
    unfold idxPut
    cases hc : keyCompare k k0 with
    | lt =>
      dsimp only
      rw [idxGet_cons, if_neg hne, idxGet_cons]
    | eq =>
      dsimp only
      have hkk0 : k = k0 := (keyCompare_eq_iff k k0).mp hc
      subst hkk0
      rw [idxGet_cons, if_neg hne, idxGet_cons, if_neg hne]
    | gt =>
      dsimp only
      rw [idxGet_cons, idxGet_cons]
      by_cases hk0 : k' = k0
      · rw [if_pos hk0, if_pos hk0]
      · rw [if_neg hk0, if_neg hk0]
        exact ih

theorem idxGet_idxDelete_other (m : Index) (k k' : List Nat) (hne : k' ≠ k) :
    idxGet (idxDelete m k).2 k' = idxGet m k' := by
  induction m with
  | nil => simp [idxDelete, idxGet]
  | cons kv t ih =>
    obtain ⟨k0, p0⟩ := kv
    unfold idxDelete
    by_cases hk : k = k0
    · rw [if_pos hk]
      dsimp only
      subst hk
      rw [idxGet_cons, if_neg hne]
    · rw [if_neg hk]
      dsimp only
      rw [idxGet_cons, idxGet_cons]
      by_cases hk0 : k' = k0
      · rw [if_pos hk0, if_pos hk0]
      · rw [if_neg hk0, if_neg hk0]
        exact ih

/-! ### Commit loop lemmas -/

theorem appendLogRecord_no_rotation (s : EngineState) (r : LogRecord)
    (h : s.activeOfs + r.encode.length ≤ s.opts.dataFileSize) :
    (appendLogRecord s r).1.activeId = s.activeId
      ∧ (appendLogRecord s r).1.activeFile = s.activeFile ++ r.encode
      ∧ (appendLogRecord s r).1.activeOfs = s.activeOfs + r.encode.length
      ∧ (appendLogRecord s r).1.oldFiles = s.oldFiles
      ∧ (appendLogRecord s r).1.index = s.index
      ∧ (appendLogRecord s r).1.seqNo = s.seqNo
      ∧ (appendLogRecord s r).1.opts = s.opts
      ∧ (appendLogRecord s r).1.reclaimSize = s.reclaimSize
      ∧ (appendLogRecord s r).2 = ⟨s.activeId, s.activeOfs, r.encode.length⟩ := by
  have hrot : ¬ s.activeOfs + r.encode.length > s.opts.dataFileSize := by omega
  refine ⟨?_, ?_, ?_, ?_, ?_, ?_, ?_, ?_, ?_⟩ <;>
    · simp only [appendLogRecord, if_neg hrot]
      split <;> simp

theorem posLookup_cons (k0 : List Nat) (p0 : LogRecordPos)
    (t : List (List Nat × LogRecordPos)) (k' : List Nat) :
    posLookup ((k0, p0) :: t) k' = if k' = k0 then some p0 else posLookup t k' := rfl

theorem posLookup_posInsert_self (m : List (List Nat × LogRecordPos))
    (k : List Nat) (pos : LogRecordPos) :
    posLookup (posInsert m k pos) k = some pos := by
  induction m with
  | nil => simp [posInsert, posLookup]
  | cons kv t ih =>
    obtain ⟨k0, p0⟩ := kv
    unfold posInsert
    by_cases hk : k = k0
    · rw [if_pos hk]
      rw [posLookup_cons, if_pos rfl]
    · rw [if_neg hk]
      rw [posLookup_cons, if_neg hk]
      exact ih

theorem posLookup_posInsert_other (m : List (List Nat × LogRecordPos))
    (k k' : List Nat) (pos : LogRecordPos) (hne : k' ≠ k) :
    posLookup (posInsert m k pos) k' = posLookup m k' := by
  induction m with
  | nil => simp [posInsert, posLookup, hne]
  | cons kv t ih =>
    obtain ⟨k0, p0⟩ := kv
    unfold posInsert
    by_cases hk : k = k0
    · rw [if_pos hk]
      subst hk
      rw [posLookup_cons, if_neg hne, posLookup_cons, if_neg hne]
    · rw [if_neg hk]
      rw [posLookup_cons, posLookup_cons]
      by_cases hk0 : k' = k0
      · rw [if_pos hk0, if_pos hk0]
      · rw [if_neg hk0, if_neg hk0]
        exact ih



theorem batchItemsEncoding_cons (kv : List Nat × LogRecord)
    (rest : List (List Nat × LogRecord)) (seq : Nat) :
    batchItemsEncoding (kv :: rest) seq
      = (commitRecord seq kv.2).encode ++ batchItemsEncoding rest seq := by
  simp [batchItemsEncoding]

theorem commitAppendLoop_cons (k0 : List Nat) (item : LogRecord)
    (rest : List (List Nat × LogRecord)) (seq : Nat) (s : EngineState)
    (positions : List (List Nat × LogRecordPos)) :
    commitAppendLoop ((k0, item) :: rest) seq s positions
      = commitAppendLoop rest seq (appendLogRecord s (commitRecord seq item)).1
          (posInsert positions item.key (appendLogRecord s (commitRecord seq item)).2) := rfl

theorem commitAppendLoop_spec (seq : Nat) :
    ∀ (items : List (List Nat × LogRecord)) (s : EngineState)
      (positions : List (List Nat × LogRecordPos)),
      s.activeOfs + (batchItemsEncoding items seq).length ≤ s.opts.dataFileSize →
      (commitAppendLoop items seq s positions).1.activeId = s.activeId
        ∧ (commitAppendLoop items seq s positions).1.activeFile
            = s.activeFile ++ batchItemsEncoding items seq
        ∧ (commitAppendLoop items seq s positions).1.activeOfs
            = s.activeOfs + (batchItemsEncoding items seq).length
        ∧ (commitAppendLoop items seq s positions).1.oldFiles = s.oldFiles
        ∧ (commitAppendLoop items seq s positions).1.index = s.index
        ∧ (commitAppendLoop items seq s positions).1.seqNo = s.seqNo
        ∧ (commitAppendLoop items seq s positions).1.opts = s.opts
        ∧ (∀ k, k ∉ items.map (fun kv => kv.2.key) →
            posLookup (commitAppendLoop items seq s positions).2 k
              = posLookup positions k)
        ∧ ((items.map (fun kv => kv.2.key)).Nodup →
            ∀ kv ∈ items, ∃ pos,
              posLookup (commitAppendLoop items seq s positions).2 kv.2.key = some pos
                ∧ pos.file_id = s.activeId ∧ s.activeOfs ≤ pos.ofs) := by
  intro items
  induction items with
  | nil =>
    intro s positions _
    refine ⟨rfl, by simp [batchItemsEncoding, commitAppendLoop], ?_, rfl, rfl, rfl, rfl,
      fun k _ => rfl, fun _ kv hkv => absurd hkv (List.not_mem_nil _)⟩
    simp [batchItemsEncoding, commitAppendLoop]
  | cons kv0 rest ih =>
    intro s positions hfit
    obtain ⟨k0, item⟩ := kv0
    rw [batchItemsEncoding_cons] at hfit
    simp only [List.length_append] at hfit
    have henc : s.activeOfs + (commitRecord seq item).encode.length
        ≤ s.opts.dataFileSize := by omega
    obtain ⟨hid, hfile, hofs, hold, hidx, hseq, hopts, _, hpos⟩ :=
      appendLogRecord_no_rotation s (commitRecord seq item) henc
    set s1 := (appendLogRecord s (commitRecord seq item)).1 with hs1
    set pos0 := (appendLogRecord s (commitRecord seq item)).2 with hpos0
    have hfit1 : s1.activeOfs + (batchItemsEncoding rest seq).length
        ≤ s1.opts.dataFileSize := by
      rw [hofs, hopts]; omega
    obtain ⟨ihid, ihfile, ihofs, ihold, ihidx, ihseq, ihopts, ihother, ihsome⟩ :=
      ih s1 (posInsert positions item.key pos0) hfit1
    rw [commitAppendLoop_cons]
    refine ⟨by rw [ihid, hid], ?_, ?_, by rw [ihold, hold], by rw [ihidx, hidx],
      by rw [ihseq, hseq], by rw [ihopts, hopts], ?_, ?_⟩
    · rw [ihfile, hfile, batchItemsEncoding_cons, List.append_assoc]
    · rw [ihofs, hofs, batchItemsEncoding_cons]
      simp only [List.length_append]
      omega
    · intro k hk
      simp only [List.map_cons, List.mem_cons, not_or] at hk
      rw [ihother k hk.2, posLookup_posInsert_other _ _ _ _ hk.1]
    · intro hnd kv hkv
      simp only [List.map_cons, List.nodup_cons] at hnd
      rcases List.mem_cons.mp hkv with heq | hmem
      · subst heq
        dsimp only at hnd ⊢
        refine ⟨pos0, ?_, ?_, ?_⟩
        · rw [ihother item.key hnd.1, posLookup_posInsert_self]
        · rw [hpos]
        · rw [hpos]
      · obtain ⟨pos, hlook, hfid, hofs2⟩ := ihsome hnd.2 kv hmem
        exact ⟨pos, hlook, by rw [hfid, hid], by rw [hofs] at hofs2; omega⟩

theorem commitIndexLoop_cons (k0 : List Nat) (item : LogRecord)
    (rest : List (List Nat × LogRecord))
    (positions : List (List Nat × LogRecordPos)) (idx : Index) :
    commitIndexLoop ((k0, item) :: rest) positions idx
      = match item.record_type with
        | .Normal =>
          match posLookup positions item.key with
          | none => .panic
          | some pos => commitIndexLoop rest positions (idxPut idx item.key pos).2
        | .Deleted => commitIndexLoop rest positions (idxDelete idx item.key).2
        | .TxnFinished => commitIndexLoop rest positions idx := rfl

theorem commitIndexLoop_spec :
    ∀ (items : List (List Nat × LogRecord))
      (positions : List (List Nat × LogRecordPos)) (idx : Index),
      (∀ kv ∈ items, (posLookup positions kv.2.key).isSome) →
      ∃ idx', commitIndexLoop items positions idx = .ok idx'
        ∧ ((items.map (fun kv => kv.2.key)).Nodup →
            ∀ kv ∈ items, kv.2.record_type = .Normal →
              idxGet idx' kv.2.key = posLookup positions kv.2.key)
        ∧ (∀ k, k ∉ items.map (fun kv => kv.2.key) → idxGet idx' k = idxGet idx k) := by
  intro items
  induction items with
  | nil =>
    intro positions idx _
    exact ⟨idx, rfl, fun _ kv hkv => absurd hkv (List.not_mem_nil _), fun k _ => rfl⟩
  | cons kv0 rest ih =>
    intro positions idx hsome
    obtain ⟨k0, item⟩ := kv0
    rw [commitIndexLoop_cons]
    have hsome' : ∀ kv ∈ rest, (posLookup positions kv.2.key).isSome :=
      fun kv hkv => hsome kv (List.mem_cons_of_mem _ hkv)
    cases hty : item.record_type with
    | Normal =>
      have hk0some := hsome (k0, item) (List.mem_cons_self _ _)
      cases hlook : posLookup positions item.key with
      | none => rw [hlook] at hk0some; cases hk0some
      | some pos =>
        obtain ⟨idx', hloop, hnormal, hother⟩ :=
          ih positions (idxPut idx item.key pos).2 hsome'
        refine ⟨idx', hloop, ?_, ?_⟩
        · intro hnd kv hkv _
          simp only [List.map_cons, List.nodup_cons] at hnd
          rcases List.mem_cons.mp hkv with heq | hmem
          · subst heq
            dsimp only at hnd ⊢
            rw [hother item.key hnd.1, idxGet_idxPut_self, hlook]
          · exact hnormal hnd.2 kv hmem (by assumption)
        · intro k hk
          simp only [List.map_cons, List.mem_cons, not_or] at hk
          rw [hother k hk.2, idxGet_idxPut_other _ _ _ _ hk.1]
    | Deleted =>
      obtain ⟨idx', hloop, hnormal, hother⟩ :=
        ih positions (idxDelete idx item.key).2 hsome'
      refine ⟨idx', hloop, ?_, ?_⟩
      · intro hnd kv hkv hn
        simp only [List.map_cons, List.nodup_cons] at hnd
        rcases List.mem_cons.mp hkv with heq | hmem
        · subst heq
          rw [hty] at hn
          cases hn
        · exact hnormal hnd.2 kv hmem hn
      · intro k hk
        simp only [List.map_cons, List.mem_cons, not_or] at hk
        rw [hother k hk.2, idxGet_idxDelete_other _ _ _ hk.1]
    | TxnFinished =>
      obtain ⟨idx', hloop, hnormal, hother⟩ := ih positions idx hsome'
      refine ⟨idx', hloop, ?_, ?_⟩
      · intro hnd kv hkv hn
        simp only [List.map_cons, List.nodup_cons] at hnd
        rcases List.mem_cons.mp hkv with heq | hmem
        · subst heq
          rw [hty] at hn
          cases hn
        · exact hnormal hnd.2 kv hmem hn
      · intro k hk
        simp only [List.map_cons, List.mem_cons, not_or] at hk
        exact hother k hk.2



theorem writeBatchCommit_spec (e : EngineState) (p : Pending) (maxBatchNum : Nat)
    (hne : p ≠ []) (hmax : p.length ≤ maxBatchNum)
    (hnd : (p.map (fun kv => kv.2.key)).Nodup)
    (hfit : e.activeOfs + (batchEncoding p e.seqNo).length ≤ e.opts.dataFileSize) :
    ∃ e1, writeBatchCommit e p maxBatchNum = .ok (e1, p)
      ∧ e1.seqNo = e.seqNo + 1
      ∧ e1.activeId = e.activeId
      ∧ e1.activeOfs = e.activeOfs + (batchEncoding p e.seqNo).length
      ∧ e1.activeFile = e.activeFile ++ batchEncoding p e.seqNo
      ∧ e1.opts = e.opts
      ∧ e1.oldFiles = e.oldFiles
      ∧ (∀ kv ∈ p, kv.2.record_type = .Normal →
          ∃ pos, idxGet e1.index kv.2.key = some pos
            ∧ pos.file_id = e.activeId ∧ e.activeOfs ≤ pos.ofs) := by
  have hlen0 : ¬ p.length = 0 := by
    intro hcon
    exact hne (List.length_eq_zero.mp hcon)
  have hlenmax : ¬ p.length > maxBatchNum := by omega
  have hblen : (batchEncoding p e.seqNo).length
      = (batchItemsEncoding p e.seqNo).length + (finRecord e.seqNo).encode.length := by
    simp [batchEncoding]
  set s0 : EngineState := { e with seqNo := e.seqNo + 1 } with hs0
  have hfit0 : s0.activeOfs + (batchItemsEncoding p e.seqNo).length
      ≤ s0.opts.dataFileSize := by
    rw [hs0]; dsimp only; omega
  obtain ⟨hid, hfile, hofs, hold, hidx, hseq, hopts, hother, hsome⟩ :=
    commitAppendLoop_spec e.seqNo p s0 [] hfit0
  set s1 := (commitAppendLoop p e.seqNo s0 []).1 with hs1
  set positions := (commitAppendLoop p e.seqNo s0 []).2 with hpositions
  have hfit1 : s1.activeOfs + (finRecord e.seqNo).encode.length
      ≤ s1.opts.dataFileSize := by
    rw [hofs, hopts, hs0]; dsimp only; omega
  obtain ⟨h2id, h2file, h2ofs, h2old, h2idx, h2seq, h2opts, _, _⟩ :=
    appendLogRecord_no_rotation s1 (finRecord e.seqNo) hfit1
  set s2 := (appendLogRecord s1 (finRecord e.seqNo)).1 with hs2
  have hsome' : ∀ kv ∈ p, (posLookup positions kv.2.key).isSome := by
    intro kv hkv
    obtain ⟨pos, hlook, _, _⟩ := hsome hnd kv hkv
    rw [hlook]
    rfl
  obtain ⟨idx', hcil, hcil_normal, _⟩ := commitIndexLoop_spec p positions s2.index hsome'
  refine ⟨{ s2 with index := idx' }, ?_, ?_, ?_, ?_, ?_, ?_, ?_, ?_⟩
  · show writeBatchCommit e p maxBatchNum = _
    unfold writeBatchCommit
    rw [if_neg hlen0, if_neg hlenmax]
    dsimp only
    rw [← hs0, ← hs1, ← hpositions]
    rw [show (appendLogRecord s1
        { key := encodeLogRecordKey txnFinKey e.seqNo, value := [],
          record_type := LogRecordType.TxnFinished }).1 = s2 from rfl]
    rw [hcil]
  · rw [h2seq, hseq, hs0]
  · rw [h2id, hid, hs0]
  · rw [h2ofs, hofs, hs0, hblen]
    dsimp only
    omega
  · rw [h2file, hfile, hs0, batchEncoding]
    dsimp only
    rw [List.append_assoc]
  · rw [h2opts, hopts, hs0]
  · rw [h2old, hold, hs0]
  · intro kv hkv hn
    obtain ⟨pos, hlook, hfid, hposofs⟩ := hsome hnd kv hkv
    refine ⟨pos, ?_, ?_, ?_⟩
    · dsimp only
      rw [hcil_normal hnd kv hkv hn, hlook]
    · rw [hfid, hs0]
    · rw [hs0] at hposofs
      exact hposofs



/-! ### Claim C9 -/

/-- C9: a successful `WriteBatch::commit` hands back the pending write set
untouched (the source never clears `pending_writes`), so a second `commit`
on the same batch succeeds again: it allocates a fresh sequence number
(`seqNo` advances by one per commit), re-appends every buffered record and
the terminator under the new sequence (the active file grows by the batch
encoding twice), and re-applies every buffered record to the index — each
Normal key ends up pointing into the second commit's region of the file. -/
theorem C9_double_commit_reappends (e : EngineState) (p : Pending)
    (maxBatchNum : Nat)
    (hne : p ≠ []) (hmax : p.length ≤ maxBatchNum)
    (hkeys : ∀ kv ∈ p, kv.1 = kv.2.key)
    (hnd : (p.map Prod.fst).Nodup)
    (hfit : e.activeOfs + (batchEncoding p e.seqNo).length
        + (batchEncoding p (e.seqNo + 1)).length ≤ e.opts.dataFileSize) :
    ∃ e1 e2,
      writeBatchCommit e p maxBatchNum = .ok (e1, p)
        ∧ writeBatchCommit e1 p maxBatchNum = .ok (e2, p)
        ∧ e1.seqNo = e.seqNo + 1 ∧ e2.seqNo = e.seqNo + 2
        ∧ e1.activeFile = e.activeFile ++ batchEncoding p e.seqNo
        ∧ e2.activeFile = e.activeFile ++ batchEncoding p e.seqNo
            ++ batchEncoding p (e.seqNo + 1)
        ∧ (∀ kv ∈ p, kv.2.record_type = .Normal →
            ∃ pos, idxGet e2.index kv.1 = some pos
              ∧ pos.file_id = e2.activeId ∧ e1.activeOfs ≤ pos.ofs) := by
  have hnd' : (p.map (fun kv => kv.2.key)).Nodup := by
    rw [show (p.map fun kv => kv.2.key) = p.map Prod.fst from
      List.map_congr_left (fun kv hkv => (hkeys kv hkv).symm)]
    exact hnd
  obtain ⟨e1, hc1, hseq1, hid1, hofs1, hfile1, hopts1, hold1, hidx1⟩ :=
    writeBatchCommit_spec e p maxBatchNum hne hmax hnd' (by omega)
  obtain ⟨e2, hc2, hseq2, hid2, hofs2, hfile2, hopts2, hold2, hidx2⟩ :=
    writeBatchCommit_spec e1 p maxBatchNum hne hmax hnd' (by
      rw [hseq1, hofs1, hopts1]
      omega)
  refine ⟨e1, e2, hc1, hc2, hseq1, by omega, hfile1, ?_, ?_⟩
  · rw [hfile2, hseq1, hfile1]
  · intro kv hkv hn
    obtain ⟨pos, hlook, hfid, hposofs⟩ := hidx2 kv hkv hn
    refine ⟨pos, ?_, ?_, hposofs⟩
    · rw [hkeys kv hkv]
      exact hlook
    · rw [hid2]
      exact hfid

/-- Witness for C9 at a fresh engine and a one-record batch. -/
theorem C9_double_commit_reappends_witness :
    ∃ e1 e2,
      writeBatchCommit (initialEngine ⟨100000, false, 0⟩)
          [([1], ⟨[1], [7], .Normal⟩)] 10000 = .ok (e1, [([1], ⟨[1], [7], .Normal⟩)])
        ∧ writeBatchCommit e1 [([1], ⟨[1], [7], .Normal⟩)] 10000
            = .ok (e2, [([1], ⟨[1], [7], .Normal⟩)])
        ∧ e1.seqNo = (initialEngine ⟨100000, false, 0⟩).seqNo + 1
        ∧ e2.seqNo = (initialEngine ⟨100000, false, 0⟩).seqNo + 2
        ∧ e1.activeFile = (initialEngine ⟨100000, false, 0⟩).activeFile
            ++ batchEncoding [([1], ⟨[1], [7], .Normal⟩)]
                (initialEngine ⟨100000, false, 0⟩).seqNo
        ∧ e2.activeFile = (initialEngine ⟨100000, false, 0⟩).activeFile
            ++ batchEncoding [([1], ⟨[1], [7], .Normal⟩)]
                (initialEngine ⟨100000, false, 0⟩).seqNo
            ++ batchEncoding [([1], ⟨[1], [7], .Normal⟩)]
                ((initialEngine ⟨100000, false, 0⟩).seqNo + 1)
        ∧ (∀ kv ∈ [([1], (⟨[1], [7], .Normal⟩ : LogRecord))],
            kv.2.record_type = .Normal →
            ∃ pos, idxGet e2.index kv.1 = some pos
              ∧ pos.file_id = e2.activeId ∧ e1.activeOfs ≤ pos.ofs) :=
  C9_double_commit_reappends (initialEngine ⟨100000, false, 0⟩)
    [([1], ⟨[1], [7], .Normal⟩)] 10000 (by decide) (by norm_num)
    (by decide) (by decide) (by decide)


/-! ### Lemmas: the startup scan replays sequence-0 record streams -/

theorem encodeLogRecordKey_zero (k : List Nat) :
    encodeLogRecordKey k nonTransactionSequence = 0 :: k := rfl

theorem storedWF_fields (r : LogRecord) (h : storedWF r) :
    r.key ≠ [] ∧ r.key.length < 2 ^ 32 ∧ r.value.length < 2 ^ 32 := by
  obtain ⟨k, hk, -, hklen, hvlen, -⟩ := h
  refine ⟨?_, hklen, hvlen⟩
  rw [hk, encodeLogRecordKey_zero]
  simp

theorem recsBytes_nil : recsBytes [] = [] := rfl

theorem recsBytes_cons (r : LogRecord) (rest : List LogRecord) :
    recsBytes (r :: rest) = r.encode ++ recsBytes rest := by
  simp [recsBytes]

theorem recsBytes_append (a b : List LogRecord) :
    recsBytes (a ++ b) = recsBytes a ++ recsBytes b := by
  simp [recsBytes]

theorem recsBytes_singleton (r : LogRecord) : recsBytes [r] = r.encode := by
  simp [recsBytes]

theorem encode_length_pos (r : LogRecord) : 0 < r.encode.length := by
  rw [encode_length]
  unfold LogRecord.encodedLength
  omega

theorem loadFileLoop_succ (fid : Nat) (file : List Nat) (ofs fuel : Nat)
    (st : LoadState) :
    loadFileLoop fid file ofs (fuel + 1) st
      = match readLogRecord file ofs with
        | .err .ReadDataFileEOF => .ok (st, ofs)
        | .err e => .err e
        | .panic => .panic
        | .ok (record, size) =>
          match loadDispatch st record ⟨fid, ofs, size⟩ with
          | .ok st1 => loadFileLoop fid file (ofs + size) fuel st1
          | .err e => .err e
          | .panic => .panic := rfl

theorem loadDispatch_stored (st : LoadState) (r : LogRecord) (pos : LogRecordPos)
    (h : storedWF r) :
    loadDispatch st r pos
      = .ok ⟨(dispatch0 (st.index, st.reclaim) (r, pos)).1,
             (dispatch0 (st.index, st.reclaim) (r, pos)).2,
             st.txnBuf, st.maxSeq⟩ := by
  obtain ⟨k, hk, -, -, -, -⟩ := h
  have hparse : parseLogRecordKey r.key = some (k, nonTransactionSequence) := by
    rw [hk]
    exact parseLogRecordKey_encode k nonTransactionSequence (by norm_num [nonTransactionSequence])
  unfold loadDispatch dispatch0
  rw [hparse]
  dsimp only
  rw [if_pos rfl]
  rcases hui : updateIndex st.index st.reclaim k r.record_type pos with ⟨idx, rc⟩
  dsimp only
  have hmax : ¬ nonTransactionSequence > st.maxSeq := by
    unfold nonTransactionSequence
    omega
  rw [if_neg hmax]

theorem loadFileLoop_stored (fid : Nat) (recs : List LogRecord)
    (hwf : ∀ r ∈ recs, storedWF r) :
    ∀ (preB : List Nat) (fuel : Nat) (st : LoadState),
      (recsBytes recs).length < fuel →
      loadFileLoop fid (preB ++ recsBytes recs) preB.length fuel st
        = .ok (⟨(replay0 (recPoss fid preB.length recs) (st.index, st.reclaim)).1,
               (replay0 (recPoss fid preB.length recs) (st.index, st.reclaim)).2,
               st.txnBuf, st.maxSeq⟩,
               preB.length + (recsBytes recs).length) := by
  induction recs with
  | nil =>
    intro preB fuel st hfuel
    cases fuel with
    | zero => omega
    | succ f =>
      rw [loadFileLoop_succ]
      rw [show preB ++ recsBytes [] = preB by simp [recsBytes_nil]]
      rw [readLogRecord_past_end preB preB.length (le_refl _)]
      simp [recPoss, replay0, recsBytes_nil]
  | cons r rest ih =>
    intro preB fuel st hfuel
    have hrlen := encode_length_pos r
    rw [recsBytes_cons] at hfuel
    rw [List.length_append] at hfuel
    cases fuel with
    | zero => omega
    | succ f =>
      obtain ⟨hne, hklen, hvlen⟩ := storedWF_fields r (hwf r (by simp))
      rw [loadFileLoop_succ]
      rw [show preB ++ recsBytes (r :: rest)
            = preB ++ r.encode ++ recsBytes rest by
          rw [recsBytes_cons, List.append_assoc]]
      rw [readLogRecord_at preB (recsBytes rest) r hne hklen hvlen]
      dsimp only
      rw [loadDispatch_stored st r ⟨fid, preB.length, r.encode.length⟩ (hwf r (by simp))]
      dsimp only
      rw [show preB.length + r.encode.length = (preB ++ r.encode).length by
          rw [List.length_append]]
      rw [show preB ++ r.encode ++ recsBytes rest
            = (preB ++ r.encode) ++ recsBytes rest from rfl]
      rw [ih (fun r0 h0 => hwf r0 (by simp [h0])) (preB ++ r.encode) f _ (by omega)]
      dsimp only
      rw [show recPoss fid preB.length (r :: rest)
            = (r, ⟨fid, preB.length, r.encode.length⟩)
                :: recPoss fid (preB.length + r.encode.length) rest from rfl]
      rw [show replay0 ((r, (⟨fid, preB.length, r.encode.length⟩ : LogRecordPos))
              :: recPoss fid (preB.length + r.encode.length) rest) (st.index, st.reclaim)
            = replay0 (recPoss fid (preB.length + r.encode.length) rest)
                (dispatch0 (st.index, st.reclaim)
                  (r, ⟨fid, preB.length, r.encode.length⟩)) from rfl]
      rw [show ((preB ++ r.encode).length : Nat) = preB.length + r.encode.length by
          rw [List.length_append]]
      rw [recsBytes_cons, List.length_append, Nat.add_assoc]



theorem loadFileLoop_stored0 (fid : Nat) (recs : List LogRecord)
    (hwf : ∀ r ∈ recs, storedWF r) (fuel : Nat) (st : LoadState)
    (hfuel : (recsBytes recs).length < fuel) :
    loadFileLoop fid (recsBytes recs) 0 fuel st
      = .ok (⟨(replay0 (recPoss fid 0 recs) (st.index, st.reclaim)).1,
             (replay0 (recPoss fid 0 recs) (st.index, st.reclaim)).2,
             st.txnBuf, st.maxSeq⟩,
             (recsBytes recs).length) := by
  have h := loadFileLoop_stored fid recs hwf [] fuel st hfuel
  simpa using h

theorem loadFiles_cons (fid : Nat) (file : List Nat)
    (rest : List (Nat × List Nat)) (st : LoadState) :
    loadFiles ((fid, file) :: rest) st
      = match loadFileLoop fid file 0 (file.length + 1) st with
        | .ok (st1, ofs) =>
          match rest with
          | [] => .ok (st1, ofs)
          | _ => loadFiles rest st1
        | .err e => .err e
        | .panic => .panic := rfl

theorem allRecPoss_cons (f : Nat × List LogRecord)
    (t : List (Nat × List LogRecord)) :
    allRecPoss (f :: t) = recPoss f.1 0 f.2 ++ allRecPoss t := by
  simp [allRecPoss]

theorem allRecPoss_singleton (fid : Nat) (recs : List LogRecord) :
    allRecPoss [(fid, recs)] = recPoss fid 0 recs := by
  simp [allRecPoss]

theorem replay0_append (a b : List (LogRecord × LogRecordPos))
    (acc : Index × Nat) : replay0 (a ++ b) acc = replay0 b (replay0 a acc) := by
  simp [replay0]

theorem loadFiles_stored (files : List (Nat × List LogRecord))
    (hwf : ∀ f ∈ files, ∀ r ∈ f.2, storedWF r)
    (lf : Nat × List LogRecord) (hlast : files.getLast? = some lf) :
    ∀ st : LoadState,
      loadFiles (files.map (fun f => (f.1, recsBytes f.2))) st
        = .ok (⟨(replay0 (allRecPoss files) (st.index, st.reclaim)).1,
               (replay0 (allRecPoss files) (st.index, st.reclaim)).2,
               st.txnBuf, st.maxSeq⟩,
               (recsBytes lf.2).length) := by
  induction files with
  | nil => cases hlast
  | cons f rest ih =>
    intro st
    obtain ⟨fid, recs⟩ := f
    rw [List.map_cons]
    rw [loadFiles_cons]
    rw [loadFileLoop_stored0 fid recs (hwf (fid, recs) (by simp))
      ((recsBytes recs).length + 1) st (by omega)]
    dsimp only
    cases rest with
    | nil =>
      have hlf : lf = (fid, recs) := by
        rw [List.getLast?_singleton] at hlast
        exact (Option.some.inj hlast).symm
      subst hlf
      rw [allRecPoss_singleton]
      rfl
    | cons g rest2 =>
      rw [List.map_cons]
      dsimp only
      rw [show ((g.1, recsBytes g.2) :: rest2.map fun f => (f.1, recsBytes f.2))
            = (g :: rest2).map (fun f => (f.1, recsBytes f.2)) from rfl]
      rw [ih (fun f0 h0 => hwf f0 (by simp [h0])) (by
        rw [List.getLast?_cons_cons] at hlast
        exact hlast)]
      dsimp only
      simp only [allRecPoss_cons, replay0_append, Prod.mk.eta]

theorem sortedInsertFile_head_le (x : Nat × List Nat)
    (l : List (Nat × List Nat)) (h : ∀ y ∈ l, x.1 ≤ y.1) :
    sortedInsertFile x l = x :: l := by
  cases l with
  | nil => rfl
  | cons y t =>
    unfold sortedInsertFile
    rw [if_pos (h y (by simp))]

theorem sortFiles_sorted (l : List (Nat × List Nat))
    (h : List.Pairwise (fun a b => a.1 < b.1) l) : sortFiles l = l := by
  induction l with
  | nil => rfl
  | cons x t ih =>
    obtain ⟨hhead, htail⟩ := List.pairwise_cons.mp h
    unfold sortFiles
    rw [ih htail]
    exact sortedInsertFile_head_le x t (fun y hy => le_of_lt (hhead y hy))

theorem engineReopen_inv (s : EngineState) (h : EngineInv s) :
    ∃ rc, engineReopen s
      = .ok { activeId := s.activeId, activeFile := s.activeFile,
              activeOfs := s.activeFile.length, oldFiles := s.oldFiles,
              index := s.index, seqNo := 1, bytesWrite := 0,
              reclaimSize := rc, opts := s.opts } := by
  obtain ⟨olds, arecs, hOld, hAct, hOfs, hPW, hWfOld, hWfAct, hIdx⟩ := h
  refine ⟨(replay0 (allRecPoss (olds ++ [(s.activeId, arecs)])) ([], 0)).2, ?_⟩
  have hview : s.oldFiles ++ [(s.activeId, s.activeFile)]
      = (olds ++ [(s.activeId, arecs)]).map (fun f => (f.1, recsBytes f.2)) := by
    rw [hOld, hAct]
    simp
  have hpw0 : List.Pairwise (fun a b => a.1 < b.1) (olds ++ [(s.activeId, arecs)]) := by
    refine List.pairwise_map.mp ?_
    rw [show (olds ++ [(s.activeId, arecs)]).map Prod.fst
          = olds.map Prod.fst ++ [s.activeId] by simp]
    exact hPW
  have hpw2 : List.Pairwise (fun a b => a.1 < b.1)
      (s.oldFiles ++ [(s.activeId, s.activeFile)]) := by
    rw [hview]
    exact List.pairwise_map.mpr hpw0
  have hsort := sortFiles_sorted _ hpw2
  have hwfall : ∀ f ∈ olds ++ [(s.activeId, arecs)], ∀ r ∈ f.2, storedWF r := by
    intro f hf r hr
    rcases List.mem_append.mp hf with hfo | hfa
    · exact hWfOld f hfo r hr
    · rw [List.mem_singleton] at hfa
      subst hfa
      exact hWfAct r hr
  unfold engineReopen
  rw [hsort]
  dsimp only
  rw [List.getLast?_concat]
  dsimp only
  rw [hview]
  rw [loadFiles_stored (olds ++ [(s.activeId, arecs)]) hwfall
    (s.activeId, arecs) (List.getLast?_concat _) ⟨[], 0, [], 0⟩]
  dsimp only
  rw [← hview, List.dropLast_concat, ← hAct, ← hIdx]
  rw [if_neg (by omega : ¬ (0 : Nat) > 0)]



/-! ### Lemmas: the effect of one append on the files and positions -/

theorem appendLogRecord_rotation_eff (s : EngineState) (r : LogRecord)
    (h : s.activeOfs + r.encode.length > s.opts.dataFileSize) :
    (appendLogRecord s r).1.activeId = s.activeId + 1
      ∧ (appendLogRecord s r).1.activeFile = r.encode
      ∧ (appendLogRecord s r).1.activeOfs = r.encode.length
      ∧ (appendLogRecord s r).1.oldFiles = ofInsert s.oldFiles s.activeId s.activeFile
      ∧ (appendLogRecord s r).1.index = s.index
      ∧ (appendLogRecord s r).1.opts = s.opts
      ∧ (appendLogRecord s r).2 = ⟨s.activeId + 1, 0, r.encode.length⟩ := by
  refine ⟨?_, ?_, ?_, ?_, ?_, ?_, ?_⟩ <;>
    · simp only [appendLogRecord, if_pos h]
      split <;> simp

theorem ofLookup_mem (m : List (Nat × List Nat)) (fid : Nat) (f : List Nat)
    (h : ofLookup m fid = some f) : fid ∈ m.map Prod.fst := by
  induction m with
  | nil => cases h
  | cons p t ih =>
    obtain ⟨k, g⟩ := p
    unfold ofLookup at h
    by_cases hk : fid = k
    · subst hk
      simp
    · rw [if_neg hk] at h
      simp [ih h]

theorem ofInsert_not_mem (m : List (Nat × List Nat)) (fid : Nat) (f : List Nat)
    (h : fid ∉ m.map Prod.fst) : ofInsert m fid f = m ++ [(fid, f)] := by
  induction m with
  | nil => rfl
  | cons p t ih =>
    obtain ⟨k, g⟩ := p
    have hk : fid ≠ k := by
      intro hc
      exact h (by simp [hc])
    unfold ofInsert
    rw [if_neg hk]
    rw [ih (by intro hc; exact h (by simp [hc]))]
    rfl

theorem ofLookup_ofInsert_other (m : List (Nat × List Nat)) (fid fid' : Nat)
    (f : List Nat) (h : fid' ≠ fid) :
    ofLookup (ofInsert m fid f) fid' = ofLookup m fid' := by
  induction m with
  | nil =>
    unfold ofInsert ofLookup
    rw [if_neg h]
    rfl
  | cons p t ih =>
    obtain ⟨k, g⟩ := p
    unfold ofInsert
    by_cases hk : fid = k
    · subst hk
      rw [if_pos rfl]
      unfold ofLookup
      rw [if_neg h, if_neg h]
    · rw [if_neg hk]
      unfold ofLookup
      by_cases hk' : fid' = k
      · rw [if_pos hk', if_pos hk']
      · rw [if_neg hk', if_neg hk']
        exact ih

theorem recPoss_singleton (fid ofs : Nat) (r : LogRecord) :
    recPoss fid ofs [r] = [(r, ⟨fid, ofs, r.encode.length⟩)] := rfl

theorem recPoss_append (fid : Nat) (a b : List LogRecord) :
    ∀ ofs, recPoss fid ofs (a ++ b)
      = recPoss fid ofs a ++ recPoss fid (ofs + (recsBytes a).length) b := by
  induction a with
  | nil =>
    intro ofs
    simp [recPoss, recsBytes_nil]
  | cons r t ih =>
    intro ofs
    rw [List.cons_append]
    rw [show recPoss fid ofs (r :: (t ++ b))
          = (r, ⟨fid, ofs, r.encode.length⟩) :: recPoss fid (ofs + r.encode.length) (t ++ b)
        from rfl]
    rw [ih (ofs + r.encode.length)]
    rw [show recPoss fid ofs (r :: t)
          = (r, ⟨fid, ofs, r.encode.length⟩) :: recPoss fid (ofs + r.encode.length) t
        from rfl]
    rw [recsBytes_cons, List.length_append]
    simp [Nat.add_assoc]

theorem allRecPoss_append (a b : List (Nat × List LogRecord)) :
    allRecPoss (a ++ b) = allRecPoss a ++ allRecPoss b := by
  simp [allRecPoss]

theorem posHolds_congr (s s2 : EngineState) (pos : LogRecordPos) (r : LogRecord)
    (hid : s2.activeId = s.activeId) (haf : s2.activeFile = s.activeFile)
    (hof : s2.oldFiles = s.oldFiles) (h : posHolds s pos r) : posHolds s2 pos r := by
  obtain ⟨pre, suf, hfile, hofs⟩ := h
  refine ⟨pre, suf, ?_, hofs⟩
  rw [show fileAt s2 pos.file_id = fileAt s pos.file_id by
    unfold fileAt
    rw [hid, haf, hof]]
  exact hfile

theorem appendLogRecord_master (s : EngineState) (r : LogRecord)
    (olds : List (Nat × List LogRecord)) (arecs : List LogRecord)
    (hOld : s.oldFiles = olds.map (fun f => (f.1, recsBytes f.2)))
    (hAct : s.activeFile = recsBytes arecs)
    (hOfs : s.activeOfs = s.activeFile.length)
    (hPW : List.Pairwise (· < ·) (olds.map Prod.fst ++ [s.activeId]))
    (hWfOld : ∀ f ∈ olds, ∀ r0 ∈ f.2, storedWF r0)
    (hWfAct : ∀ r0 ∈ arecs, storedWF r0)
    (hr : storedWF r) :
    ∃ (olds2 : List (Nat × List LogRecord)) (arecs2 : List LogRecord),
      (appendLogRecord s r).1.oldFiles = olds2.map (fun f => (f.1, recsBytes f.2)) ∧
      (appendLogRecord s r).1.activeFile = recsBytes arecs2 ∧
      (appendLogRecord s r).1.activeOfs = (appendLogRecord s r).1.activeFile.length ∧
      List.Pairwise (· < ·) (olds2.map Prod.fst ++ [(appendLogRecord s r).1.activeId]) ∧
      (∀ f ∈ olds2, ∀ r0 ∈ f.2, storedWF r0) ∧
      (∀ r0 ∈ arecs2, storedWF r0) ∧
      allRecPoss (olds2 ++ [((appendLogRecord s r).1.activeId, arecs2)])
        = allRecPoss (olds ++ [(s.activeId, arecs)]) ++ [(r, (appendLogRecord s r).2)] ∧
      posHolds (appendLogRecord s r).1 (appendLogRecord s r).2 r ∧
      (∀ pos0 r0, posHolds s pos0 r0 → posHolds (appendLogRecord s r).1 pos0 r0) ∧
      (appendLogRecord s r).1.index = s.index ∧
      (appendLogRecord s r).1.opts = s.opts := by
  have hlt : ∀ a ∈ olds.map Prod.fst, a < s.activeId := by
    intro a ha
    exact (List.pairwise_append.mp hPW).2.2 a ha s.activeId (by simp)
  by_cases hrot : s.activeOfs + r.encode.length > s.opts.dataFileSize
  · -- rotation: the active file is sealed under its id and a fresh one starts
    obtain ⟨hid, haf, hofs2, hold, hidx, hopts, hpos⟩ :=
      appendLogRecord_rotation_eff s r hrot
    refine ⟨olds ++ [(s.activeId, arecs)], [r], ?_, ?_, ?_, ?_, ?_, ?_, ?_, ?_, ?_, hidx, hopts⟩
    · rw [hold]
      have hfresh : s.activeId ∉ s.oldFiles.map Prod.fst := by
        rw [hOld]
        intro hc
        simp only [List.map_map] at hc
        have : s.activeId ∈ olds.map Prod.fst := by
          simpa using hc
        exact absurd rfl (Nat.ne_of_lt (hlt _ this)).symm
      rw [ofInsert_not_mem _ _ _ hfresh, hOld, hAct]
      simp
    · rw [haf, recsBytes_singleton]
    · rw [hofs2, haf]
    · rw [hid]
      rw [show (olds ++ [(s.activeId, arecs)]).map Prod.fst
            = olds.map Prod.fst ++ [s.activeId] by simp]
      refine List.pairwise_append.mpr ⟨hPW, by simp, ?_⟩
      intro a ha b hb
      rw [List.mem_singleton] at hb
      subst hb
      rcases List.mem_append.mp ha with h1 | h2
      · exact lt_trans (hlt a h1) (by omega)
      · rw [List.mem_singleton] at h2
        omega
    · intro f hf r0 hr0
      rcases List.mem_append.mp hf with h1 | h2
      · exact hWfOld f h1 r0 hr0
      · rw [List.mem_singleton] at h2
        subst h2
        exact hWfAct r0 hr0
    · intro r0 hr0
      rw [List.mem_singleton] at hr0
      subst hr0
      exact hr
    · rw [hid, hpos]
      simp only [allRecPoss_append, allRecPoss_singleton, recPoss_singleton,
        List.append_assoc]
    · refine ⟨[], [], ?_, ?_⟩
      · rw [hpos]
        unfold fileAt
        rw [if_pos (by rw [hid]), haf]
        simp
      · rw [hpos]
        rfl
    · intro pos0 r0 hph
      obtain ⟨pre, suf, hfile, hpl⟩ := hph
      unfold fileAt at hfile
      by_cases hfid : s.activeId = pos0.file_id
      · rw [if_pos hfid] at hfile
        refine ⟨pre, suf, ?_, hpl⟩
        unfold fileAt
        rw [if_neg (by rw [hid]; omega), hold, ← hfid, ofLookup_ofInsert_self]
        exact hfile
      · rw [if_neg hfid] at hfile
        have hmem : pos0.file_id ∈ olds.map Prod.fst := by
          have := ofLookup_mem _ _ _ hfile
          rw [hOld] at this
          simpa using this
        have hsmall := hlt _ hmem
        refine ⟨pre, suf, ?_, hpl⟩
        unfold fileAt
        rw [if_neg (by rw [hid]; omega), hold,
          ofLookup_ofInsert_other _ _ _ _ (by omega)]
        exact hfile
  · -- no rotation: the record lands at the end of the active file
    obtain ⟨hid, haf, hofs2, hold, hidx, hseq, hopts, hrec, hpos⟩ :=
      appendLogRecord_no_rotation s r (by omega)
    refine ⟨olds, arecs ++ [r], ?_, ?_, ?_, ?_, hWfOld, ?_, ?_, ?_, ?_, hidx, hopts⟩
    · rw [hold, hOld]
    · rw [haf, hAct, recsBytes_append, recsBytes_singleton]
    · rw [hofs2, haf, hOfs, List.length_append]
    · rw [hid]
      exact hPW
    · intro r0 hr0
      rcases List.mem_append.mp hr0 with h1 | h2
      · exact hWfAct r0 h1
      · rw [List.mem_singleton] at h2
        subst h2
        exact hr
    · rw [hid, hpos, hOfs, hAct]
      simp only [allRecPoss_append, allRecPoss_singleton, recPoss_append,
        recPoss_singleton, Nat.zero_add, List.append_assoc]
    · refine ⟨s.activeFile, [], ?_, ?_⟩
      · rw [hpos]
        dsimp only
        unfold fileAt
        rw [if_pos (by rw [hid]), haf]
        simp
      · rw [hpos]
        exact hOfs.symm
    · intro pos0 r0 hph
      obtain ⟨pre, suf, hfile, hpl⟩ := hph
      unfold fileAt at hfile
      by_cases hfid : s.activeId = pos0.file_id
      · rw [if_pos hfid] at hfile
        rw [Option.some.injEq] at hfile
        refine ⟨pre, suf ++ r.encode, ?_, hpl⟩
        unfold fileAt
        rw [if_pos (by rw [hid]; exact hfid), haf, hfile]
        simp
      · rw [if_neg hfid] at hfile
        refine ⟨pre, suf, ?_, hpl⟩
        unfold fileAt
        rw [if_neg (by rw [hid]; exact hfid), hold]
        exact hfile



/-! ### Lemmas: one put or delete against the replayed index -/

theorem replay0_concat (rs : List (LogRecord × LogRecordPos))
    (rp : LogRecord × LogRecordPos) (acc : Index × Nat) :
    replay0 (rs ++ [rp]) acc = dispatch0 (replay0 rs acc) rp := by
  simp [replay0]

theorem updateIndex_normal (index : Index) (reclaim : Nat) (key : List Nat)
    (pos : LogRecordPos) :
    updateIndex index reclaim key .Normal pos
      = ((idxPut index key pos).2,
         reclaim + (match (idxPut index key pos).1 with
                    | some o => o.size
                    | none => 0)) := by
  unfold updateIndex
  rcases h : idxPut index key pos with ⟨old, idx⟩
  rfl

theorem updateIndex_deleted (index : Index) (reclaim : Nat) (key : List Nat)
    (pos : LogRecordPos) :
    updateIndex index reclaim key .Deleted pos
      = ((idxDelete index key).2,
         reclaim + pos.size + (match (idxDelete index key).1 with
                               | some o => o.size
                               | none => 0)) := by
  unfold updateIndex
  rcases h : idxDelete index key with ⟨old, idx⟩
  rfl

theorem dispatch0_fst_normal (acc : Index × Nat) (k v : List Nat)
    (pos : LogRecordPos) :
    (dispatch0 acc (⟨encodeLogRecordKey k nonTransactionSequence, v, .Normal⟩, pos)).1
      = (idxPut acc.1 k pos).2 := by
  unfold dispatch0
  rw [parseLogRecordKey_encode k nonTransactionSequence
    (by norm_num [nonTransactionSequence])]
  dsimp only
  rw [updateIndex_normal]

theorem dispatch0_fst_deleted (acc : Index × Nat) (k v : List Nat)
    (pos : LogRecordPos) :
    (dispatch0 acc (⟨encodeLogRecordKey k nonTransactionSequence, v, .Deleted⟩, pos)).1
      = (idxDelete acc.1 k).2 := by
  unfold dispatch0
  rw [parseLogRecordKey_encode k nonTransactionSequence
    (by norm_num [nonTransactionSequence])]
  dsimp only
  rw [updateIndex_deleted]

theorem enginePut_eq (s : EngineState) (key value : List Nat) (hk : key ≠ []) :
    enginePut s key value
      = (fun s1 pos =>
          Res.ok { s1 with
            index := (idxPut s1.index key pos).2
            reclaimSize := s1.reclaimSize
              + (match (idxPut s1.index key pos).1 with
                 | some o => o.size
                 | none => 0) })
        (appendLogRecord s
          ⟨encodeLogRecordKey key nonTransactionSequence, value, .Normal⟩).1
        (appendLogRecord s
          ⟨encodeLogRecordKey key nonTransactionSequence, value, .Normal⟩).2 := by
  unfold enginePut
  rw [if_neg hk]

theorem enginePut_ok (s : EngineState) (k v : List Nat) (hInv : EngineInv s)
    (hk : k ≠ []) (hklen : k.length + 1 < 2 ^ 32) (hvlen : v.length < 2 ^ 32) :
    ∃ s2, enginePut s k v = .ok s2 ∧ EngineInv s2 ∧ keyReads s2 k v ∧
      (∀ k0 v0, k0 ≠ k → keyReads s k0 v0 → keyReads s2 k0 v0) := by
  obtain ⟨olds, arecs, hOld, hAct, hOfs, hPW, hWfOld, hWfAct, hIdx⟩ := hInv
  have hstored : storedWF
      (⟨encodeLogRecordKey k nonTransactionSequence, v, .Normal⟩ : LogRecord) := by
    refine ⟨k, rfl, hk, ?_, hvlen, Or.inl rfl⟩
    rw [encodeLogRecordKey_zero]
    simp only [List.length_cons]
    omega
  obtain ⟨olds2, arecs2, mOld, mAct, mOfs, mPW, mWfOld, mWfAct, mAll, mPosNew,
    mPres, mIdx, mOpts⟩ :=
    appendLogRecord_master s
      ⟨encodeLogRecordKey k nonTransactionSequence, v, .Normal⟩
      olds arecs hOld hAct hOfs hPW hWfOld hWfAct hstored
  refine ⟨_, enginePut_eq s k v hk, ?_, ?_, ?_⟩
  · refine ⟨olds2, arecs2, mOld, mAct, mOfs, mPW, mWfOld, mWfAct, ?_⟩
    dsimp only
    rw [mIdx, mAll, replay0_concat, dispatch0_fst_normal, ← hIdx]
  · refine ⟨(appendLogRecord s
        ⟨encodeLogRecordKey k nonTransactionSequence, v, .Normal⟩).2, ?_, ?_⟩
    · dsimp only
      exact idxGet_idxPut_self _ _ _
    · exact posHolds_congr _ _ _ _ rfl rfl rfl mPosNew
  · intro k0 v0 hne hreads
    obtain ⟨pos0, hget0, hph0⟩ := hreads
    refine ⟨pos0, ?_, ?_⟩
    · dsimp only
      rw [idxGet_idxPut_other _ _ _ _ hne, mIdx]
      exact hget0
    · exact posHolds_congr _ _ _ _ rfl rfl rfl (mPres pos0 _ hph0)



theorem engineDelete_eq (s : EngineState) (key : List Nat) (q : LogRecordPos)
    (hk : key ≠ []) (hsome : idxGet s.index key = some q) :
    engineDelete s key
      = (fun s1 pos =>
          Res.ok { s1 with
            index := (idxDelete s1.index key).2
            reclaimSize := s1.reclaimSize + pos.size
              + (match (idxDelete s1.index key).1 with
                 | some o => o.size
                 | none => 0) })
        (appendLogRecord s
          ⟨encodeLogRecordKey key nonTransactionSequence, [], .Deleted⟩).1
        (appendLogRecord s
          ⟨encodeLogRecordKey key nonTransactionSequence, [], .Deleted⟩).2 := by
  unfold engineDelete
  rw [if_neg hk, if_neg (by rw [hsome]; simp)]

theorem engineDelete_ok (s : EngineState) (k : List Nat) (hInv : EngineInv s)
    (hk : k ≠ []) (hklen : k.length + 1 < 2 ^ 32) :
    ∃ s2, engineDelete s k = .ok s2 ∧ EngineInv s2 ∧
      (∀ k0 v0, k0 ≠ k → keyReads s k0 v0 → keyReads s2 k0 v0) := by
  cases hg : idxGet s.index k with
  | none =>
    refine ⟨s, ?_, hInv, ?_⟩
    · unfold engineDelete
      rw [if_neg hk, if_pos (by rw [hg]; rfl)]
    · intro k0 v0 hne h
      exact h
  | some q =>
    obtain ⟨olds, arecs, hOld, hAct, hOfs, hPW, hWfOld, hWfAct, hIdx⟩ := hInv
    have hstored : storedWF
        (⟨encodeLogRecordKey k nonTransactionSequence, [], .Deleted⟩ : LogRecord) := by
      refine ⟨k, rfl, hk, ?_, by norm_num, Or.inr rfl⟩
      rw [encodeLogRecordKey_zero]
      simp only [List.length_cons]
      omega
    obtain ⟨olds2, arecs2, mOld, mAct, mOfs, mPW, mWfOld, mWfAct, mAll, mPosNew,
      mPres, mIdx, mOpts⟩ :=
      appendLogRecord_master s
        ⟨encodeLogRecordKey k nonTransactionSequence, [], .Deleted⟩
        olds arecs hOld hAct hOfs hPW hWfOld hWfAct hstored
    refine ⟨_, engineDelete_eq s k q hk hg, ?_, ?_⟩
    · refine ⟨olds2, arecs2, mOld, mAct, mOfs, mPW, mWfOld, mWfAct, ?_⟩
      dsimp only
      rw [mIdx, mAll, replay0_concat, dispatch0_fst_deleted, ← hIdx]
    · intro k0 v0 hne hreads
      obtain ⟨pos0, hget0, hph0⟩ := hreads
      refine ⟨pos0, ?_, ?_⟩
      · dsimp only
        rw [idxGet_idxDelete_other _ _ _ hne, mIdx]
        exact hget0
      · exact posHolds_congr _ _ _ _ rfl rfl rfl (mPres pos0 _ hph0)

theorem engineReopen_ok (s : EngineState) (hInv : EngineInv s) :
    ∃ s2, engineReopen s = .ok s2 ∧ EngineInv s2 ∧
      (∀ k0 v0, keyReads s k0 v0 → keyReads s2 k0 v0) := by
  obtain ⟨rc, hre⟩ := engineReopen_inv s hInv
  obtain ⟨olds, arecs, hOld, hAct, hOfs, hPW, hWfOld, hWfAct, hIdx⟩ := hInv
  refine ⟨_, hre, ?_, ?_⟩
  · exact ⟨olds, arecs, hOld, hAct, rfl, hPW, hWfOld, hWfAct, hIdx⟩
  · intro k0 v0 hreads
    obtain ⟨pos0, hget0, hph0⟩ := hreads
    exact ⟨pos0, hget0, posHolds_congr _ _ _ _ rfl rfl rfl hph0⟩

theorem initialEngine_inv (opts : EngOptions) : EngineInv (initialEngine opts) :=
  ⟨[], [], rfl, rfl, rfl, by simp, by simp, by simp, rfl⟩

theorem runOps_cons_eq (s : EngineState) (op : EngineOp) (rest : List EngineOp) :
    runOps s (op :: rest)
      = match runOp s op with
        | .ok s1 => runOps s1 rest
        | .err e => .err e
        | .panic => .panic := rfl

theorem runOps_inv (ops : List EngineOp) :
    ∀ s s2 : EngineState, EngineInv s → (∀ op ∈ ops, op.wf) →
      runOps s ops = .ok s2 → EngineInv s2 := by
  induction ops with
  | nil =>
    intro s s2 h _ hrun
    cases hrun
    exact h
  | cons op rest ih =>
    intro s s2 hInv hwf hrun
    rw [runOps_cons_eq] at hrun
    have hwfrest : ∀ op0 ∈ rest, op0.wf := fun op0 h0 => hwf op0 (by simp [h0])
    cases op with
    | put k0 v0 =>
      obtain ⟨hkl, hvl⟩ := hwf (.put k0 v0) (by simp)
      by_cases hk0 : k0 = []
      · subst hk0
        rw [show runOp s (.put [] v0) = Res.err Errors.KeyIsEmpty from rfl] at hrun
        cases hrun
      · obtain ⟨s1, hput, hInv1, -, -⟩ := enginePut_ok s k0 v0 hInv hk0 hkl hvl
        rw [show runOp s (.put k0 v0) = enginePut s k0 v0 from rfl, hput] at hrun
        exact ih s1 s2 hInv1 hwfrest hrun
    | del k0 =>
      have hkl := hwf (.del k0) (by simp)
      by_cases hk0 : k0 = []
      · subst hk0
        rw [show runOp s (.del []) = Res.err Errors.KeyIsEmpty from rfl] at hrun
        cases hrun
      · obtain ⟨s1, hdel, hInv1, -⟩ := engineDelete_ok s k0 hInv hk0 hkl
        rw [show runOp s (.del k0) = engineDelete s k0 from rfl, hdel] at hrun
        exact ih s1 s2 hInv1 hwfrest hrun
    | sync =>
      exact ih s s2 hInv hwfrest hrun
    | reopen =>
      obtain ⟨s1, hre, hInv1, -⟩ := engineReopen_ok s hInv
      rw [show runOp s .reopen = engineReopen s from rfl, hre] at hrun
      exact ih s1 s2 hInv1 hwfrest hrun



theorem runOps_inv_reads (ops : List EngineOp) (k v : List Nat) :
    ∀ s s2 : EngineState, EngineInv s → keyReads s k v →
      (∀ op ∈ ops, op.wf) → (∀ op ∈ ops, ¬ op.touches k) →
      runOps s ops = .ok s2 → EngineInv s2 ∧ keyReads s2 k v := by
  induction ops with
  | nil =>
    intro s s2 hInv hkr _ _ hrun
    cases hrun
    exact ⟨hInv, hkr⟩
  | cons op rest ih =>
    intro s s2 hInv hkr hwf htouch hrun
    rw [runOps_cons_eq] at hrun
    have hwfrest : ∀ op0 ∈ rest, op0.wf := fun op0 h0 => hwf op0 (by simp [h0])
    have htrest : ∀ op0 ∈ rest, ¬ op0.touches k :=
      fun op0 h0 => htouch op0 (by simp [h0])
    cases op with
    | put k0 v0 =>
      obtain ⟨hkl, hvl⟩ := hwf (.put k0 v0) (by simp)
      have hne : k ≠ k0 := by
        intro hc
        exact htouch (.put k0 v0) (by simp) hc.symm
      by_cases hk0 : k0 = []
      · subst hk0
        rw [show runOp s (.put [] v0) = Res.err Errors.KeyIsEmpty from rfl] at hrun
        cases hrun
      · obtain ⟨s1, hput, hInv1, -, hpres⟩ := enginePut_ok s k0 v0 hInv hk0 hkl hvl
        rw [show runOp s (.put k0 v0) = enginePut s k0 v0 from rfl, hput] at hrun
        exact ih s1 s2 hInv1 (hpres k v hne hkr) hwfrest htrest hrun
    | del k0 =>
      have hkl := hwf (.del k0) (by simp)
      have hne : k ≠ k0 := by
        intro hc
        exact htouch (.del k0) (by simp) hc.symm
      by_cases hk0 : k0 = []
      · subst hk0
        rw [show runOp s (.del []) = Res.err Errors.KeyIsEmpty from rfl] at hrun
        cases hrun
      · obtain ⟨s1, hdel, hInv1, hpres⟩ := engineDelete_ok s k0 hInv hk0 hkl
        rw [show runOp s (.del k0) = engineDelete s k0 from rfl, hdel] at hrun
        exact ih s1 s2 hInv1 (hpres k v hne hkr) hwfrest htrest hrun
    | sync =>
      exact ih s s2 hInv hkr hwfrest htrest hrun
    | reopen =>
      obtain ⟨s1, hre, hInv1, hpres⟩ := engineReopen_ok s hInv
      rw [show runOp s .reopen = engineReopen s from rfl, hre] at hrun
      exact ih s1 s2 hInv1 (hpres k v hkr) hwfrest htrest hrun

theorem engineGet_keyReads (s : EngineState) (k v : List Nat)
    (h : keyReads s k v) (hk : k ≠ []) (hklen : k.length + 1 < 2 ^ 32)
    (hvlen : v.length < 2 ^ 32) :
    engineGet s k = .ok v := by
  obtain ⟨pos, hget, pre, suf, hfile, hplen⟩ := h
  have hread := readLogRecord_at pre suf
    ⟨encodeLogRecordKey k nonTransactionSequence, v, .Normal⟩
    (by rw [encodeLogRecordKey_zero]; simp)
    (by rw [encodeLogRecordKey_zero]; simp only [List.length_cons]; omega)
    hvlen
  unfold engineGet
  rw [if_neg hk, hget]
  unfold getValueByPosition
  unfold fileAt at hfile
  dsimp only
  by_cases hid : s.activeId = pos.file_id
  · rw [if_pos hid] at hfile ⊢
    rw [Option.some.injEq] at hfile
    rw [hfile, ← hplen, hread]
    simp
  · rw [if_neg hid] at hfile ⊢
    rw [hfile]
    dsimp only
    rw [← hplen, hread]
    simp



/-! ### Claim C1 -/

/-- C1: for every key `k` and value `v`, after a successful
`Engine::put(k, v)` — reached from `Engine::open` on an empty directory by
any successful sequence of wellformed API calls — followed by `sync()` or
a close/reopen cycle (and any further successful wellformed calls), with
no later put or delete on `k`, `Engine::get(k)` returns exactly the bytes
`v`. -/
theorem C1_put_then_durable_get (opts : EngOptions) (pre mid : List EngineOp)
    (k v : List Nat) (s0 s1 s2 : EngineState)
    (hk : k ≠ []) (hklen : k.length + 1 < 2 ^ 32) (hvlen : v.length < 2 ^ 32)
    (hprewf : ∀ op ∈ pre, op.wf) (hmidwf : ∀ op ∈ mid, op.wf)
    (hdurable : mid.head? = some .sync ∨ mid.head? = some .reopen)
    (hnotouch : ∀ op ∈ mid, ¬ op.touches k)
    (h0 : runOps (initialEngine opts) pre = .ok s0)
    (h1 : enginePut s0 k v = .ok s1)
    (h2 : runOps s1 mid = .ok s2) :
    engineGet s2 k = .ok v := by
  have hinv0 := runOps_inv pre (initialEngine opts) s0 (initialEngine_inv opts)
    hprewf h0
  obtain ⟨s1x, hput, hinv1, hreads1, -⟩ := enginePut_ok s0 k v hinv0 hk hklen hvlen
  rw [hput] at h1
  cases h1
  obtain ⟨hinv2, hreads2⟩ := runOps_inv_reads mid k v s1 s2 hinv1 hreads1
    hmidwf hnotouch h2
  exact engineGet_keyReads s2 k v hreads2 hk hklen hvlen

/-- Witness for C1: on a fresh engine, put key `[1]` with value `[7]`,
close and reopen, then sync; get returns `[7]`. -/
theorem C1_put_then_durable_get_witness :
    engineGet { activeId := 1, activeFile := [0, 2, 1, 0, 1, 7, 244, 193, 49, 68],
                activeOfs := 10, oldFiles := [], index := [([1], ⟨1, 0, 10⟩)],
                seqNo := 1, bytesWrite := 0, reclaimSize := 0,
                opts := ⟨100, false, 0⟩ } [1] = .ok [7] :=
  C1_put_then_durable_get ⟨100, false, 0⟩ [] [.reopen, .sync] [1] [7]
    (initialEngine ⟨100, false, 0⟩)
    { activeId := 1, activeFile := [0, 2, 1, 0, 1, 7, 244, 193, 49, 68],
      activeOfs := 10, oldFiles := [], index := [([1], ⟨1, 0, 10⟩)],
      seqNo := 1, bytesWrite := 10, reclaimSize := 0, opts := ⟨100, false, 0⟩ }
    { activeId := 1, activeFile := [0, 2, 1, 0, 1, 7, 244, 193, 49, 68],
      activeOfs := 10, oldFiles := [], index := [([1], ⟨1, 0, 10⟩)],
      seqNo := 1, bytesWrite := 0, reclaimSize := 0, opts := ⟨100, false, 0⟩ }
    (by decide) (by norm_num) (by norm_num)
    (by intro op h; cases h)
    (by intro op h; rcases List.mem_cons.mp h with rfl | h2
        · trivial
        · rcases List.mem_cons.mp h2 with rfl | h3
          · trivial
          · cases h3)
    (Or.inr rfl)
    (by intro op h; rcases List.mem_cons.mp h with rfl | h2
        · exact fun hc => hc
        · rcases List.mem_cons.mp h2 with rfl | h3
          · exact fun hc => hc
          · cases h3)
    (by decide) (by decide) (by decide)

end SmallDB
